import Mathlib

set_option maxHeartbeats 1000000

/-!
Shallow embedding of the repository's two source modules:

* `src/prqueue/priority_queue.py` — the `Task` dataclass, the binary-heap
  `PriorityQueue` with a `position` index map, and `simulate_scheduler`;
* `src/heap/heapsort.py` — the standalone in-place `heapsort`.

Python lists become Lean `List`s; Python's `dict` position map becomes a
function `String → Option Nat` (Python dict assignment = pointwise update,
`del` = pointwise removal).  Python indexing `heap[i]` is modelled by
`heapGet`, total via a default; every in-contract access is in bounds.
Operations that raise (`extract_top` on an empty queue, `increase_key` on an
absent or stale id) return `none`.
-/

namespace Prqueue

/-- `Task` from priority_queue.py.  `payload` is opaque optional data that is
never examined by the code, modelled with `Option Unit`. -/
structure Task where
  priority : Int
  task_id : String
  arrival_time : Option Int := none
  deadline : Option Int := none
  payload : Option Unit := none
  deriving DecidableEq, Repr

/-- Default used to totalize Python list indexing (never observed in contract). -/
def dTask : Task := { priority := 0, task_id := "" }

/-- Python `heap[i]` (total model of list indexing). -/
def heapGet (l : List Task) (i : Nat) : Task := (l[i]?).getD dTask

/-- Python dict assignment `m[k] = v`. -/
def pyUpdate (m : String → Option Nat) (k : String) (v : Nat) : String → Option Nat :=
  fun id => if id = k then some v else m id

/-- Python dict deletion `del m[k]`. -/
def pyDelete (m : String → Option Nat) (k : String) : String → Option Nat :=
  fun id => if id = k then none else m id

/-- The `PriorityQueue` state: heap array, mode flag, and position map. -/
structure PQ where
  use_max_heap : Bool
  heap : List Task
  position : String → Option Nat

/-- `PriorityQueue.__init__`. -/
def PQ.empty (use_max_heap : Bool) : PQ :=
  { use_max_heap := use_max_heap, heap := [], position := fun _ => none }

/-- `PriorityQueue._key`: effective priority key based on heap type. -/
def PQ.key (q : PQ) (t : Task) : Int :=
  if q.use_max_heap then t.priority else -t.priority

/-- Effective key of the element at index `i`. -/
def PQ.keyAt (q : PQ) (i : Nat) : Int := q.key (heapGet q.heap i)

/-- `PriorityQueue._swap`: swap heap slots `i`, `j` and update their stored
positions (the Python code updates `position[heap[i].task_id]` and then
`position[heap[j].task_id]` after the swap; the second write wins). -/
def PQ.swap (q : PQ) (i j : Nat) : PQ :=
  let ti := heapGet q.heap i
  let tj := heapGet q.heap j
  { q with
    heap := (q.heap.set i tj).set j ti
    position := fun id =>
      if id = ti.task_id then some j
      else if id = tj.task_id then some i
      else q.position id }

/-- `PriorityQueue._sift_up`. -/
def PQ.sift_up (q : PQ) (idx : Nat) : PQ :=
  if 0 < idx then
    if q.keyAt ((idx - 1) / 2) < q.keyAt idx then
      (q.swap ((idx - 1) / 2) idx).sift_up ((idx - 1) / 2)
    else q
  else q
termination_by idx
decreasing_by omega

/-- The `largest` computed by one round of `PriorityQueue._sift_down`
(`largest = idx`, then the two sequential child comparisons). -/
def PQ.largestOf (q : PQ) (idx : Nat) : Nat :=
  let n := q.heap.length
  let l1 := if 2 * idx + 1 < n ∧ q.keyAt idx < q.keyAt (2 * idx + 1) then 2 * idx + 1 else idx
  if 2 * idx + 2 < n ∧ q.keyAt l1 < q.keyAt (2 * idx + 2) then 2 * idx + 2 else l1

lemma PQ.length_swap (q : PQ) (i j : Nat) : (q.swap i j).heap.length = q.heap.length := by
  simp [PQ.swap]

lemma PQ.largestOf_bounds (q : PQ) (idx : Nat) (h : q.largestOf idx ≠ idx) :
    idx < q.largestOf idx ∧ q.largestOf idx < q.heap.length := by
  simp only [PQ.largestOf] at h ⊢
  split_ifs at h ⊢ with h1 h2 h2 <;> omega

/-- `PriorityQueue._sift_down`. -/
def PQ.sift_down (q : PQ) (idx : Nat) : PQ :=
  if h : q.largestOf idx ≠ idx then
    (q.swap idx (q.largestOf idx)).sift_down (q.largestOf idx)
  else q
termination_by q.heap.length - idx
decreasing_by
  have := q.largestOf_bounds idx h
  rw [PQ.length_swap]
  omega

/-- `PriorityQueue.insert`. -/
def PQ.insert (q : PQ) (t : Task) : PQ :=
  PQ.sift_up
    { q with
      heap := q.heap ++ [t]
      position := pyUpdate q.position t.task_id ((q.heap ++ [t]).length - 1) }
    ((q.heap ++ [t]).length - 1)

/-- `PriorityQueue.is_empty`. -/
def PQ.is_empty (q : PQ) : Bool := q.heap.length == 0

/-- `PriorityQueue.extract_top`; `none` models the `IndexError` on an empty
queue.  `heap.pop()` removes the last slot and yields its task. -/
def PQ.extract_top (q : PQ) : Option (Task × PQ) :=
  if q.heap.isEmpty then none
  else
    let top := heapGet q.heap 0
    let last := heapGet q.heap (q.heap.length - 1)
    let rest := q.heap.dropLast
    let pos1 := pyDelete q.position top.task_id
    if rest.isEmpty then some (top, { q with heap := rest, position := pos1 })
    else
      some (top,
        PQ.sift_down
          { q with heap := rest.set 0 last, position := pyUpdate pos1 last.task_id 0 } 0)

/-- `PriorityQueue.increase_key`; `none` models the `KeyError` for an absent id
(and the `IndexError` a stale out-of-range index would raise at `heap[idx]`). -/
def PQ.increase_key (q : PQ) (task_id : String) (new_priority : Int) : Option PQ :=
  match q.position task_id with
  | none => none
  | some idx =>
    if idx < q.heap.length then
      let task := heapGet q.heap idx
      let q1 := { q with heap := q.heap.set idx { task with priority := new_priority } }
      some
        (if q.use_max_heap then
          if task.priority ≤ new_priority then q1.sift_up idx else q1.sift_down idx
        else
          if task.priority ≤ new_priority then q1.sift_down idx else q1.sift_up idx)
    else none

/-- `PriorityQueue.decrease_key` (forwards to `increase_key`). -/
def PQ.decrease_key (q : PQ) (task_id : String) (new_priority : Int) : Option PQ :=
  q.increase_key task_id new_priority

lemma PQ.length_sift_down (q : PQ) (idx : Nat) :
    (q.sift_down idx).heap.length = q.heap.length := by
  induction q, idx using PQ.sift_down.induct with
  | case1 q idx h ih => rw [PQ.sift_down, dif_pos h, ih, PQ.length_swap]
  | case2 q idx h => rw [PQ.sift_down, dif_neg h]

lemma PQ.extract_top_length {q : PQ} {t : Task} {q' : PQ}
    (h : q.extract_top = some (t, q')) : q'.heap.length + 1 = q.heap.length := by
  simp only [PQ.extract_top] at h
  split at h
  · exact absurd h (by simp)
  · next h0 =>
    have hq : q.heap.length ≠ 0 := by
      intro hz
      exact h0 (by simpa [List.isEmpty_iff, List.length_eq_zero] using hz)
    split at h
    · next h1 =>
      obtain ⟨-, rfl⟩ := Prod.mk.injEq .. ▸ Option.some.inj h
      have hr : q.heap.dropLast.length = 0 := by
        simp only [List.isEmpty_iff] at h1
        simp [h1]
      simp only [List.length_dropLast] at hr ⊢
      omega
    · obtain ⟨-, rfl⟩ := Prod.mk.injEq .. ▸ Option.some.inj h
      simp only [PQ.length_sift_down, List.length_set, List.length_dropLast]
      omega

/-- Repeatedly `extract_top` until the queue is empty, collecting the tasks. -/
def PQ.drain (q : PQ) : List Task :=
  match h : q.extract_top with
  | none => []
  | some (t, q') => t :: q'.drain
termination_by q.heap.length
decreasing_by
  have := PQ.extract_top_length h
  omega

/-- Python `x or y` where `x` is an optional int (`None` and `0` are falsy). -/
def pyOr (x : Option Int) (y : Int) : Int :=
  match x with
  | none => y
  | some v => if v = 0 then y else v

/-- `pending[i].arrival_time or 0`, the admission-phase arrival value. -/
def arrOr0 (t : Task) : Int := pyOr t.arrival_time 0

/-- The sort key of `simulate_scheduler`:
`t.arrival_time if t.arrival_time is not None else 0`. -/
def arrKey (t : Task) : Int := t.arrival_time.getD 0

/-- The inner admission loop of `simulate_scheduler`:
`while i < len(pending) and (pending[i].arrival_time or 0) <= time_now`. -/
def admitAll (pending : List Task) (i : Nat) (q : PQ) (time : Int) : PQ × Nat :=
  if h : i < pending.length ∧ arrOr0 (heapGet pending i) ≤ time then
    admitAll pending (i + 1) (q.insert (heapGet pending i)) time
  else (q, i)
termination_by pending.length - i
decreasing_by omega

/-- One fuel unit = one iteration of the outer `while` loop of
`simulate_scheduler`; `none` means the fuel ran out (which never happens for
the fuel used in `simRun`; see the termination lemmas). -/
def simLoop (fuel : Nat) (pending : List Task) (i : Nat) (q : PQ) (time : Int)
    (timeline : List (Int × Task)) : Option (List (Int × Task)) :=
  match fuel with
  | 0 => none
  | fuel + 1 =>
    if i < pending.length ∨ ¬q.is_empty then
      let qi := admitAll pending i q time
      if qi.1.is_empty then
        simLoop fuel pending qi.2 qi.1
          (if qi.2 < pending.length then pyOr (heapGet pending qi.2).arrival_time time
           else time)
          timeline
      else
        match qi.1.extract_top with
        | none => none
        | some tq => simLoop fuel pending qi.2 tq.2 (time + 1) (timeline ++ [(time, tq.1)])
    else some timeline

/-- Stable insertion of a task into a list sorted by `arrKey` (the new task
goes in front of the first resident with key ≥ its own, i.e. after all
earlier-arriving tasks and before later entries with equal key). -/
def insertByArrival (t : Task) : List Task → List Task
  | [] => [t]
  | u :: rest => if arrKey t ≤ arrKey u then t :: u :: rest else u :: insertByArrival t rest

/-- `sorted(tasks, key=lambda t: ...)`: Python's `sorted` is a stable sort by
the key, and a stable sort by a key is unique as a function, so it is modelled
by stable insertion sort. -/
def sortByArrival : List Task → List Task
  | [] => []
  | t :: rest => insertByArrival t (sortByArrival rest)

/-- `simulate_scheduler`, with the `while` loop run on fuel `2*|tasks| + 1`
(one unit per loop iteration; always enough, proved below). -/
def simRun (tasks : List Task) (use_max_heap : Bool) : Option (List (Int × Task)) :=
  simLoop (2 * tasks.length + 1) (sortByArrival tasks) 0 (PQ.empty use_max_heap) 0 []

/-- `simulate_scheduler` from priority_queue.py. -/
def simulate_scheduler (tasks : List Task) (use_max_heap : Bool := true) :
    List (Int × Task) :=
  (simRun tasks use_max_heap).getD []

end Prqueue

/-- Python `a[i]` inside heapsort.py (total model of list indexing). -/
def hsGet (a : List Int) (i : Nat) : Int := (a[i]?).getD 0

/-- The tuple swap `a[i], a[j] = a[j], a[i]`. -/
def hsSwap (a : List Int) (i j : Nat) : List Int :=
  (a.set i (hsGet a j)).set j (hsGet a i)

/-- The `child` selected by one round of heapsort's `sift_down`
(the larger of the two children within `end`). -/
def hsChild (a : List Int) (root endd : Nat) : Nat :=
  if 2 * root + 1 + 1 ≤ endd ∧ hsGet a (2 * root + 1) < hsGet a (2 * root + 1 + 1) then
    2 * root + 1 + 1
  else 2 * root + 1

lemma hsChild_gt (a : List Int) (root endd : Nat) : root < hsChild a root endd := by
  unfold hsChild
  split <;> omega

lemma hsChild_le (a : List Int) (root endd : Nat) (h : 2 * root + 1 ≤ endd) :
    hsChild a root endd ≤ endd := by
  unfold hsChild
  split <;> omega

/-- `sift_down(a, start, end)` from heapsort.py (`end` is an inclusive index). -/
def hsSiftDown (a : List Int) (root endd : Nat) : List Int :=
  if h : 2 * root + 1 > endd then a
  else if hsGet a root < hsGet a (hsChild a root endd) then
    hsSiftDown (hsSwap a root (hsChild a root endd)) (hsChild a root endd) endd
  else a
termination_by endd - root
decreasing_by
  have h1 := hsChild_gt a root endd
  have h2 := hsChild_le a root endd (by omega)
  omega

/-- The heapify loop `for start in range((n-2)//2, -1, -1)` of heapsort.py,
running `sift_down(a, start, n-1)` for `start, start-1, ..., 0`. -/
def heapifyFrom (a : List Int) (n : Nat) : Nat → List Int
  | 0 => hsSiftDown a 0 (n - 1)
  | s + 1 => heapifyFrom (hsSiftDown a (s + 1) (n - 1)) n s

/-- The extraction loop `for end in range(n-1, 0, -1)` of heapsort.py,
swapping `a[0], a[end]` and sifting down over `[0, end-1]`
for `end = endd, endd-1, ..., 1`. -/
def sortDown (a : List Int) : Nat → List Int
  | 0 => a
  | e + 1 => sortDown (hsSiftDown (hsSwap a 0 (e + 1)) 0 e) e

/-- `heapsort` from heapsort.py.  For `n ≤ 1` both Python loops are empty
(`range((n-2)//2, -1, -1)` is empty since `(n-2)//2 = -1` in Python, and
`range(n-1, 0, -1)` is empty), so the copy of the input is returned. -/
def heapsort (arr : List Int) : List Int :=
  sortDown
    (if 2 ≤ arr.length then heapifyFrom arr arr.length ((arr.length - 2) / 2) else arr)
    (arr.length - 1)

namespace Prqueue

/-- `j` is a heap child of `i` (index `2i+1` or `2i+2`). -/
def childOf (i j : Nat) : Prop := j = 2 * i + 1 ∨ j = 2 * i + 2

/-- Heap-order invariant: every resident slot with an existing child has
effective key ≥ the effective key of that child. -/
def PQ.heapInv (q : PQ) : Prop :=
  ∀ i j, childOf i j → j < q.heap.length → q.keyAt j ≤ q.keyAt i

/-- Position-map invariant: the map has an entry exactly for the resident task
ids, and each entry points at a heap slot holding a task with that id. -/
def PQ.posOK (q : PQ) : Prop :=
  (∀ id, (q.position id).isSome ↔ id ∈ q.heap.map Task.task_id) ∧
  (∀ id k, q.position id = some k →
    k < q.heap.length ∧ (heapGet q.heap k).task_id = id)

/-- Resident task ids are pairwise distinct. -/
def PQ.nodupIds (q : PQ) : Prop := (q.heap.map Task.task_id).Nodup

/-- Heap order holds on every edge except possibly the one into `idx`, and the
children of `idx` are also bounded by the key at the parent of `idx`.  This is
the precondition from which `_sift_up idx` restores the full invariant. -/
def PQ.upInv (q : PQ) (idx : Nat) : Prop :=
  (∀ i j, childOf i j → j < q.heap.length → j ≠ idx → q.keyAt j ≤ q.keyAt i) ∧
  (0 < idx → ∀ j, childOf idx j → j < q.heap.length →
    q.keyAt j ≤ q.keyAt ((idx - 1) / 2))

/-- Heap order holds on every edge except possibly the ones out of `idx`, and
the children of `idx` are also bounded by the key at the parent of `idx`.  This
is the precondition from which `_sift_down idx` restores the full invariant. -/
def PQ.downInv (q : PQ) (idx : Nat) : Prop :=
  (∀ i j, childOf i j → j < q.heap.length → i ≠ idx → q.keyAt j ≤ q.keyAt i) ∧
  (0 < idx → ∀ j, childOf idx j → j < q.heap.length →
    q.keyAt j ≤ q.keyAt ((idx - 1) / 2))

/-- A public mutating call on the queue. -/
inductive Op where
  | insert (t : Task)
  | extract
  | update (id : String) (p : Int)
  | decrease (id : String) (p : Int)

/-- Apply one public call; a call that raises in Python (`extract_top` on an
empty queue, a key update for an absent id) leaves the state unchanged. -/
def applyOp (q : PQ) : Op → PQ
  | .insert t => q.insert t
  | .extract =>
    match q.extract_top with
    | none => q
    | some tq => tq.2
  | .update id p =>
    match q.increase_key id p with
    | none => q
    | some q' => q'
  | .decrease id p =>
    match q.decrease_key id p with
    | none => q
    | some q' => q'

/-- Apply a sequence of public calls. -/
def applyOps (q : PQ) (ops : List Op) : PQ := ops.foldl applyOp q

/-- The ids of the tasks inserted by a sequence of calls. -/
def insertIds : List Op → List String
  | [] => []
  | Op.insert t :: ops => t.task_id :: insertIds ops
  | _ :: ops => insertIds ops

/-- Effective key of a task: `priority` in max mode, `-priority` in min mode. -/
def effKey (use_max_heap : Bool) (t : Task) : Int :=
  if use_max_heap then t.priority else -t.priority

end Prqueue

section ListHelpers

variable {α : Type _}

lemma append_singleton_perm (l : List α) (x : α) : (l ++ [x]).Perm (x :: l) := by
  simpa using (@List.perm_middle _ x l [])

lemma perm_append_singleton_inv {l₁ l₂ : List α} {x : α}
    (h : (l₁ ++ [x]).Perm (l₂ ++ [x])) : l₁.Perm l₂ :=
  ((append_singleton_perm l₁ x).symm.trans
    (h.trans (append_singleton_perm l₂ x))).cons_inv

lemma middle_append_singleton_perm (T D : List α) (a x : α) :
    ((T ++ a :: D) ++ [x]).Perm (a :: x :: (T ++ D)) := by
  have h1 : ((T ++ a :: D) ++ [x]).Perm ((a :: (T ++ D)) ++ [x]) :=
    List.perm_middle.append_right [x]
  have h2 : ((a :: (T ++ D)) ++ [x]).Perm (a :: (x :: (T ++ D))) :=
    (append_singleton_perm (T ++ D) x).cons a
  exact h1.trans h2

lemma set_append_perm {l : List α} {i : Nat} {x : α} (a : α) (hx : l[i]? = some x) :
    ((l.set i a) ++ [x]).Perm (l ++ [a]) := by
  have hi : i < l.length := by
    by_contra hc
    simp [List.getElem?_eq_none (Nat.le_of_not_lt hc)] at hx
  have hset : l.set i a = l.take i ++ a :: l.drop (i + 1) := by
    rw [List.set_eq_take_append_cons_drop]
    simp [hi]
  have hdec : l = l.take i ++ x :: l.drop (i + 1) := by
    conv_lhs => rw [← List.take_append_drop i l]
    have h2 : l[i] :: l.drop (i + 1) = l.drop i := List.getElem_cons_drop l i hi
    rw [← h2]
    simp only [List.getElem?_eq_getElem hi, Option.some.injEq] at hx
    rw [hx]
  have pL := middle_append_singleton_perm (l.take i) (l.drop (i + 1)) a x
  have pR := middle_append_singleton_perm (l.take i) (l.drop (i + 1)) x a
  rw [← hset] at pL
  rw [← hdec] at pR
  exact pL.trans ((List.Perm.swap x a _).trans pR.symm)

end ListHelpers

namespace Prqueue

lemma getElem?_of_heapGet {l : List Task} {i : Nat} (h : i < l.length) :
    l[i]? = some (heapGet l i) := by
  simp [heapGet, List.getElem?_eq_getElem h]

lemma heapGet_set_self {l : List Task} {i : Nat} (h : i < l.length) (a : Task) :
    heapGet (l.set i a) i = a := by
  simp [heapGet, List.getElem?_set, h]

lemma heapGet_set_ne {l : List Task} {i j : Nat} (h : i ≠ j) (a : Task) :
    heapGet (l.set i a) j = heapGet l j := by
  simp [heapGet, List.getElem?_set, h]

lemma heapGet_append_lt {l : List Task} {k : Nat} (h : k < l.length) (t : Task) :
    heapGet (l ++ [t]) k = heapGet l k := by
  simp [heapGet, List.getElem?_append, h]

lemma heapGet_append_len (l : List Task) (t : Task) :
    heapGet (l ++ [t]) l.length = t := by
  simp [heapGet, List.getElem?_concat_length]

lemma heapGet_dropLast {l : List Task} {k : Nat} (h : k < l.length - 1) :
    heapGet l.dropLast k = heapGet l k := by
  have hk : k < l.length := by omega
  simp [heapGet, List.dropLast_eq_take, List.getElem?_take, h, List.getElem?_eq_getElem hk]

lemma heapGet_mem {l : List Task} {i : Nat} (h : i < l.length) : heapGet l i ∈ l := by
  rw [List.mem_iff_getElem?]
  exact ⟨i, getElem?_of_heapGet h⟩

lemma mem_iff_heapGet {l : List Task} {x : Task} :
    x ∈ l ↔ ∃ i, i < l.length ∧ heapGet l i = x := by
  rw [List.mem_iff_getElem?]
  constructor
  · rintro ⟨i, hi⟩
    have hlt : i < l.length := by
      by_contra hc
      simp [List.getElem?_eq_none (Nat.le_of_not_lt hc)] at hi
    refine ⟨i, hlt, ?_⟩
    simp [heapGet, hi]
  · rintro ⟨i, hlt, rfl⟩
    exact ⟨i, getElem?_of_heapGet hlt⟩

lemma mem_map_id_iff {l : List Task} {id : String} :
    id ∈ l.map Task.task_id ↔ ∃ i, i < l.length ∧ (heapGet l i).task_id = id := by
  rw [List.mem_map]
  constructor
  · rintro ⟨t, ht, rfl⟩
    obtain ⟨i, hlt, rfl⟩ := mem_iff_heapGet.mp ht
    exact ⟨i, hlt, rfl⟩
  · rintro ⟨i, hlt, rfl⟩
    exact ⟨heapGet l i, heapGet_mem hlt, rfl⟩

lemma PQ.use_max_swap (q : PQ) (i j : Nat) :
    (q.swap i j).use_max_heap = q.use_max_heap := rfl

lemma PQ.key_swap (q : PQ) (i j : Nat) (t : Task) : (q.swap i j).key t = q.key t := rfl

lemma PQ.heapGet_swap_snd {q : PQ} {i j : Nat} (hj : j < q.heap.length) :
    heapGet (q.swap i j).heap j = heapGet q.heap i := by
  simp only [PQ.swap]
  rw [heapGet_set_self (by simpa using hj)]

lemma PQ.heapGet_swap_fst {q : PQ} {i j : Nat} (hi : i < q.heap.length) (hij : i ≠ j) :
    heapGet (q.swap i j).heap i = heapGet q.heap j := by
  simp only [PQ.swap]
  rw [heapGet_set_ne (Ne.symm hij), heapGet_set_self hi]

lemma PQ.heapGet_swap_other {q : PQ} {i j k : Nat} (hki : k ≠ i) (hkj : k ≠ j) :
    heapGet (q.swap i j).heap k = heapGet q.heap k := by
  simp only [PQ.swap]
  rw [heapGet_set_ne (Ne.symm hkj), heapGet_set_ne (Ne.symm hki)]

lemma PQ.keyAt_swap_snd {q : PQ} {i j : Nat} (hj : j < q.heap.length) :
    (q.swap i j).keyAt j = q.keyAt i := by
  show (q.swap i j).key _ = q.key _
  rw [PQ.key_swap, PQ.heapGet_swap_snd hj]

lemma PQ.keyAt_swap_fst {q : PQ} {i j : Nat} (hi : i < q.heap.length) (hij : i ≠ j) :
    (q.swap i j).keyAt i = q.keyAt j := by
  show (q.swap i j).key _ = q.key _
  rw [PQ.key_swap, PQ.heapGet_swap_fst hi hij]

lemma PQ.keyAt_swap_other {q : PQ} {i j k : Nat} (hki : k ≠ i) (hkj : k ≠ j) :
    (q.swap i j).keyAt k = q.keyAt k := by
  show (q.swap i j).key _ = q.key _
  rw [PQ.key_swap, PQ.heapGet_swap_other hki hkj]

lemma PQ.swap_perm {q : PQ} {i j : Nat} (hi : i < q.heap.length)
    (hj : j < q.heap.length) : (q.swap i j).heap.Perm q.heap := by
  have hswap : (q.swap i j).heap
      = (q.heap.set i (heapGet q.heap j)).set j (heapGet q.heap i) := rfl
  by_cases hij : i = j
  · subst hij
    have p2 : ((q.heap.set i (heapGet q.heap i)) ++ [heapGet q.heap i]).Perm
        (q.heap ++ [heapGet q.heap i]) :=
      set_append_perm _ (getElem?_of_heapGet hi)
    have p1 : (((q.heap.set i (heapGet q.heap i)).set i (heapGet q.heap i))
        ++ [heapGet q.heap i]).Perm
        ((q.heap.set i (heapGet q.heap i)) ++ [heapGet q.heap i]) := by
      refine set_append_perm _ ?_
      rw [List.getElem?_set]
      simp [hi, heapGet, List.getElem?_eq_getElem hi]
    rw [hswap]
    exact perm_append_singleton_inv (p1.trans p2)
  · have hj' : (q.heap.set i (heapGet q.heap j))[j]? = some (heapGet q.heap j) := by
      rw [List.getElem?_set]
      simp [hij]
      exact getElem?_of_heapGet hj
    have p1 : (((q.heap.set i (heapGet q.heap j)).set j (heapGet q.heap i))
        ++ [heapGet q.heap j]).Perm
        ((q.heap.set i (heapGet q.heap j)) ++ [heapGet q.heap i]) :=
      set_append_perm _ hj'
    have p2 : ((q.heap.set i (heapGet q.heap j)) ++ [heapGet q.heap i]).Perm
        (q.heap ++ [heapGet q.heap j]) :=
      set_append_perm _ (getElem?_of_heapGet hi)
    rw [hswap]
    exact perm_append_singleton_inv (p1.trans p2)

lemma PQ.swap_pos_isSome {q : PQ} {i j : Nat} {id : String}
    (h : (q.position id).isSome) : ((q.swap i j).position id).isSome := by
  simp only [PQ.swap]
  split_ifs <;> simp [h]

lemma PQ.swap_nodupIds {q : PQ} {i j : Nat} (hi : i < q.heap.length)
    (hj : j < q.heap.length) (h : q.nodupIds) : (q.swap i j).nodupIds := by
  exact (((PQ.swap_perm hi hj).map Task.task_id).nodup_iff).mpr h

lemma PQ.swap_posOK {q : PQ} {i j : Nat} (hi : i < q.heap.length)
    (hj : j < q.heap.length) (hpos : q.posOK) : (q.swap i j).posOK := by
  obtain ⟨hdom, hcor⟩ := hpos
  constructor
  · intro id
    rw [List.Perm.mem_iff ((PQ.swap_perm hi hj).map Task.task_id)]
    show (if id = (heapGet q.heap i).task_id then some j
      else if id = (heapGet q.heap j).task_id then some i
      else q.position id).isSome ↔ _
    split_ifs with h1 h2
    · subst h1
      simp only [Option.isSome_some, true_iff]
      exact mem_map_id_iff.mpr ⟨i, hi, rfl⟩
    · subst h2
      simp only [Option.isSome_some, true_iff]
      exact mem_map_id_iff.mpr ⟨j, hj, rfl⟩
    · exact hdom id
  · intro id k hk
    replace hk : (if id = (heapGet q.heap i).task_id then some j
        else if id = (heapGet q.heap j).task_id then some i
        else q.position id) = some k := hk
    rw [PQ.length_swap]
    split_ifs at hk with h1 h2
    · obtain rfl : j = k := Option.some.inj hk
      exact ⟨hj, by rw [PQ.heapGet_swap_snd hj, ← h1]⟩
    · obtain rfl : i = k := Option.some.inj hk
      have hij : i ≠ j := by
        intro hij
        subst hij
        exact h1 h2
      exact ⟨hi, by rw [PQ.heapGet_swap_fst hi hij, ← h2]⟩
    · obtain ⟨hklen, hkid⟩ := hcor id k hk
      have hki : k ≠ i := by
        intro hki
        subst hki
        exact h1 hkid.symm
      have hkj : k ≠ j := by
        intro hkj
        subst hkj
        exact h2 hkid.symm
      exact ⟨hklen, by rw [PQ.heapGet_swap_other hki hkj]; exact hkid⟩

end Prqueue

namespace Prqueue

lemma set_self_of_getElem {α : Type _} {l : List α} {i : Nat} {x : α}
    (h : l[i]? = some x) : l.set i x = l := by
  apply List.ext_getElem?
  intro n
  rw [List.getElem?_set]
  split_ifs with hin hlt
  · subst hin
    exact h.symm
  · subst hin
    have : l[i]? = none := List.getElem?_eq_none (Nat.le_of_not_lt hlt)
    rw [this] at h
    exact absurd h (by simp)
  · rfl

lemma childOf_lt {i j : Nat} (h : childOf i j) : i < j := by
  rcases h with h | h <;> omega

lemma childOf_parent {i j : Nat} (h : childOf i j) : i = (j - 1) / 2 ∧ 0 < j := by
  rcases h with h | h <;> omega

lemma childOf_of_parent {j : Nat} (h : 0 < j) : childOf ((j - 1) / 2) j := by
  unfold childOf
  omega

lemma not_childOf_zero {i : Nat} : ¬childOf i 0 := by
  unfold childOf
  omega

lemma PQ.sift_up_use_max (q : PQ) (idx : Nat) :
    (q.sift_up idx).use_max_heap = q.use_max_heap := by
  induction q, idx using PQ.sift_up.induct with
  | case1 q idx h0 hk ih =>
    rw [PQ.sift_up, if_pos h0, if_pos hk]
    exact ih.trans (PQ.use_max_swap ..)
  | case2 q idx h0 hk => rw [PQ.sift_up, if_pos h0, if_neg hk]
  | case3 q idx h0 => rw [PQ.sift_up, if_neg h0]

lemma PQ.length_sift_up (q : PQ) (idx : Nat) :
    (q.sift_up idx).heap.length = q.heap.length := by
  induction q, idx using PQ.sift_up.induct with
  | case1 q idx h0 hk ih =>
    rw [PQ.sift_up, if_pos h0, if_pos hk]
    exact ih.trans (PQ.length_swap ..)
  | case2 q idx h0 hk => rw [PQ.sift_up, if_pos h0, if_neg hk]
  | case3 q idx h0 => rw [PQ.sift_up, if_neg h0]

lemma PQ.sift_up_pos_isSome (q : PQ) (idx : Nat) {id : String}
    (h : (q.position id).isSome) : ((q.sift_up idx).position id).isSome := by
  induction q, idx using PQ.sift_up.induct with
  | case1 q idx h0 hk ih =>
    rw [PQ.sift_up, if_pos h0, if_pos hk]
    exact ih (PQ.swap_pos_isSome h)
  | case2 q idx h0 hk =>
    rw [PQ.sift_up, if_pos h0, if_neg hk]
    exact h
  | case3 q idx h0 =>
    rw [PQ.sift_up, if_neg h0]
    exact h

lemma PQ.sift_up_perm (q : PQ) (idx : Nat) :
    idx < q.heap.length → (q.sift_up idx).heap.Perm q.heap := by
  induction q, idx using PQ.sift_up.induct with
  | case1 q idx h0 hk ih =>
    intro hlen
    rw [PQ.sift_up, if_pos h0, if_pos hk]
    have hp : (idx - 1) / 2 < q.heap.length := by omega
    exact (ih (by rw [PQ.length_swap]; omega)).trans (PQ.swap_perm hp hlen)
  | case2 q idx h0 hk =>
    intro _
    rw [PQ.sift_up, if_pos h0, if_neg hk]
  | case3 q idx h0 =>
    intro _
    rw [PQ.sift_up, if_neg h0]

lemma PQ.sift_up_posOK (q : PQ) (idx : Nat) :
    idx < q.heap.length → q.posOK → (q.sift_up idx).posOK := by
  induction q, idx using PQ.sift_up.induct with
  | case1 q idx h0 hk ih =>
    intro hlen hpos
    rw [PQ.sift_up, if_pos h0, if_pos hk]
    have hp : (idx - 1) / 2 < q.heap.length := by omega
    exact ih (by rw [PQ.length_swap]; omega) (PQ.swap_posOK hp hlen hpos)
  | case2 q idx h0 hk =>
    intro _ hpos
    rw [PQ.sift_up, if_pos h0, if_neg hk]
    exact hpos
  | case3 q idx h0 =>
    intro _ hpos
    rw [PQ.sift_up, if_neg h0]
    exact hpos

lemma PQ.upInv_swap_step {q : PQ} {idx : Nat} (h0 : 0 < idx)
    (hlen : idx < q.heap.length) (hu : q.upInv idx)
    (hk : q.keyAt ((idx - 1) / 2) < q.keyAt idx) :
    (q.swap ((idx - 1) / 2) idx).upInv ((idx - 1) / 2) := by
  obtain ⟨hu1, hu2⟩ := hu
  have hplen : (idx - 1) / 2 < q.heap.length := by omega
  have hpi : (idx - 1) / 2 ≠ idx := by omega
  have hlen' : (q.swap ((idx - 1) / 2) idx).heap.length = q.heap.length :=
    PQ.length_swap ..
  constructor
  · intro i j hc hj hjp
    rw [hlen'] at hj
    by_cases hji : j = idx
    · subst hji
      rw [(childOf_parent hc).1, PQ.keyAt_swap_snd hlen, PQ.keyAt_swap_fst hplen hpi]
      exact le_of_lt hk
    · rw [PQ.keyAt_swap_other hjp hji]
      by_cases hip : i = (idx - 1) / 2
      · subst hip
        rw [PQ.keyAt_swap_fst hplen hpi]
        exact le_of_lt (lt_of_le_of_lt (hu1 _ _ hc hj hji) hk)
      · by_cases hii : i = idx
        · subst hii
          rw [PQ.keyAt_swap_snd hlen]
          exact hu2 h0 j hc hj
        · rw [PQ.keyAt_swap_other hip hii]
          exact hu1 _ _ hc hj hji
  · intro hp0 j hc hj
    rw [hlen'] at hj
    have hgp : ((idx - 1) / 2 - 1) / 2 ≠ (idx - 1) / 2 := by omega
    have hgi : ((idx - 1) / 2 - 1) / 2 ≠ idx := by omega
    have hcp : childOf (((idx - 1) / 2 - 1) / 2) ((idx - 1) / 2) := childOf_of_parent hp0
    have hple2 : q.keyAt ((idx - 1) / 2) ≤ q.keyAt (((idx - 1) / 2 - 1) / 2) :=
      hu1 _ _ hcp hplen hpi
    rw [PQ.keyAt_swap_other hgp hgi]
    by_cases hji : j = idx
    · subst hji
      rw [PQ.keyAt_swap_snd hlen]
      exact hple2
    · have hjp : j ≠ (idx - 1) / 2 := by
        have := childOf_lt hc
        omega
      rw [PQ.keyAt_swap_other hjp hji]
      exact le_trans (hu1 _ _ hc hj hji) hple2

lemma PQ.sift_up_heapInv (q : PQ) (idx : Nat) :
    idx < q.heap.length → q.upInv idx → (q.sift_up idx).heapInv := by
  induction q, idx using PQ.sift_up.induct with
  | case1 q idx h0 hk ih =>
    intro hlen hu
    rw [PQ.sift_up, if_pos h0, if_pos hk]
    exact ih (by rw [PQ.length_swap]; omega) (PQ.upInv_swap_step h0 hlen hu hk)
  | case2 q idx h0 hk =>
    intro hlen hu
    rw [PQ.sift_up, if_pos h0, if_neg hk]
    intro i j hc hj
    by_cases hji : j = idx
    · subst hji
      rw [(childOf_parent hc).1]
      exact le_of_not_lt hk
    · exact hu.1 i j hc hj hji
  | case3 q idx h0 =>
    intro hlen hu
    rw [PQ.sift_up, if_neg h0]
    intro i j hc hj
    have hji : j ≠ idx := by
      intro hji
      rw [hji] at hc
      have := childOf_lt hc
      omega
    exact hu.1 i j hc hj hji

end Prqueue

namespace Prqueue

lemma PQ.largestOf_spec (q : PQ) (idx : Nat) :
    (q.largestOf idx = idx ∧
      ∀ j, childOf idx j → j < q.heap.length → q.keyAt j ≤ q.keyAt idx) ∨
    (childOf idx (q.largestOf idx) ∧ q.largestOf idx < q.heap.length ∧
      q.keyAt idx < q.keyAt (q.largestOf idx) ∧
      ∀ j, childOf idx j → j < q.heap.length → q.keyAt j ≤ q.keyAt (q.largestOf idx)) := by
  simp only [PQ.largestOf]
  split_ifs with h1 h2 h2
  · refine Or.inr ⟨Or.inr rfl, h2.1, lt_trans h1.2 h2.2, ?_⟩
    rintro j (rfl | rfl) hj
    · exact le_of_lt h2.2
    · exact le_refl _
  · refine Or.inr ⟨Or.inl rfl, h1.1, h1.2, ?_⟩
    rintro j (rfl | rfl) hj
    · exact le_refl _
    · push_neg at h2
      exact h2 hj
  · refine Or.inr ⟨Or.inr rfl, h2.1, h2.2, ?_⟩
    rintro j (rfl | rfl) hj
    · push_neg at h1
      exact le_of_lt (lt_of_le_of_lt (h1 hj) h2.2)
    · exact le_refl _
  · refine Or.inl ⟨rfl, ?_⟩
    rintro j (rfl | rfl) hj
    · push_neg at h1
      exact h1 hj
    · push_neg at h2
      exact h2 hj

lemma PQ.sift_down_use_max (q : PQ) (idx : Nat) :
    (q.sift_down idx).use_max_heap = q.use_max_heap := by
  induction q, idx using PQ.sift_down.induct with
  | case1 q idx h ih =>
    rw [PQ.sift_down, dif_pos h]
    exact ih.trans (PQ.use_max_swap ..)
  | case2 q idx h => rw [PQ.sift_down, dif_neg h]

lemma PQ.sift_down_perm (q : PQ) (idx : Nat) : (q.sift_down idx).heap.Perm q.heap := by
  induction q, idx using PQ.sift_down.induct with
  | case1 q idx h ih =>
    rw [PQ.sift_down, dif_pos h]
    obtain ⟨hlt, hlen⟩ := q.largestOf_bounds idx h
    exact ih.trans (PQ.swap_perm (by omega) hlen)
  | case2 q idx h => rw [PQ.sift_down, dif_neg h]

lemma PQ.sift_down_pos_isSome (q : PQ) (idx : Nat) {id : String}
    (h : (q.position id).isSome) : ((q.sift_down idx).position id).isSome := by
  induction q, idx using PQ.sift_down.induct with
  | case1 q idx hne ih =>
    rw [PQ.sift_down, dif_pos hne]
    exact ih (PQ.swap_pos_isSome h)
  | case2 q idx hne =>
    rw [PQ.sift_down, dif_neg hne]
    exact h

lemma PQ.sift_down_posOK (q : PQ) (idx : Nat) :
    q.posOK → (q.sift_down idx).posOK := by
  induction q, idx using PQ.sift_down.induct with
  | case1 q idx h ih =>
    intro hpos
    rw [PQ.sift_down, dif_pos h]
    obtain ⟨hlt, hlen⟩ := q.largestOf_bounds idx h
    exact ih (PQ.swap_posOK (by omega) hlen hpos)
  | case2 q idx h =>
    intro hpos
    rw [PQ.sift_down, dif_neg h]
    exact hpos

lemma PQ.downInv_swap_step {q : PQ} {idx : Nat} (hd : q.downInv idx)
    (hne : q.largestOf idx ≠ idx) :
    (q.swap idx (q.largestOf idx)).downInv (q.largestOf idx) := by
  obtain ⟨hd1, hd2⟩ := hd
  rcases q.largestOf_spec idx with ⟨heq, -⟩ | ⟨hc, hclen, hkey, hmax⟩
  · exact absurd heq hne
  have hlt : idx < q.largestOf idx := childOf_lt hc
  have hilen : idx < q.heap.length := by omega
  have hic : idx ≠ q.largestOf idx := by omega
  have hlen' : (q.swap idx (q.largestOf idx)).heap.length = q.heap.length :=
    PQ.length_swap ..
  have hparent : idx = (q.largestOf idx - 1) / 2 := (childOf_parent hc).1
  constructor
  · intro i j hcij hj hic2
    rw [hlen'] at hj
    by_cases hii : idx = i
    · subst hii
      by_cases hjc : q.largestOf idx = j
      · subst hjc
        rw [PQ.keyAt_swap_snd hclen, PQ.keyAt_swap_fst hilen hic]
        exact le_of_lt hkey
      · have hji : j ≠ idx := by
          have := childOf_lt hcij
          omega
        rw [PQ.keyAt_swap_other hji (Ne.symm hjc), PQ.keyAt_swap_fst hilen hic]
        exact hmax j hcij hj
    · by_cases hji : idx = j
      · subst hji
        have h0 : 0 < idx := (childOf_parent hcij).2
        have hi2 : i ≠ q.largestOf idx := by
          have := childOf_lt hcij
          omega
        rw [PQ.keyAt_swap_fst hilen hic, PQ.keyAt_swap_other (Ne.symm hii) hi2,
          (childOf_parent hcij).1]
        exact hd2 h0 _ hc hclen
      · by_cases hjc : q.largestOf idx = j
        · subst hjc
          exact absurd ((childOf_parent hcij).1.trans hparent.symm).symm hii
        · rw [PQ.keyAt_swap_other (Ne.symm hji) (Ne.symm hjc),
            PQ.keyAt_swap_other (Ne.symm hii) hic2]
          exact hd1 i j hcij hj (Ne.symm hii)
  · intro hc0 j hcj hj
    rw [hlen'] at hj
    have hjgt : q.largestOf idx < j := childOf_lt hcj
    have hji : j ≠ idx := by omega
    have hjc : j ≠ q.largestOf idx := by omega
    rw [PQ.keyAt_swap_other hji hjc, ← hparent, PQ.keyAt_swap_fst hilen hic]
    exact hd1 _ j hcj hj (Ne.symm hic)

lemma PQ.sift_down_heapInv (q : PQ) (idx : Nat) :
    q.downInv idx → (q.sift_down idx).heapInv := by
  induction q, idx using PQ.sift_down.induct with
  | case1 q idx h ih =>
    intro hd
    rw [PQ.sift_down, dif_pos h]
    exact ih (PQ.downInv_swap_step hd h)
  | case2 q idx h =>
    intro hd
    rw [PQ.sift_down, dif_neg h]
    rcases q.largestOf_spec idx with ⟨-, hmax⟩ | ⟨hcc, -, -, -⟩
    · intro i j hc hj
      by_cases hii : idx = i
      · subst hii
        exact hmax j hc hj
      · exact hd.1 i j hc hj (Ne.symm hii)
    · simp only [not_not] at h
      rw [h] at hcc
      have := childOf_lt hcc
      omega

end Prqueue

namespace Prqueue

lemma PQ.insert_use_max (q : PQ) (t : Task) :
    (q.insert t).use_max_heap = q.use_max_heap := by
  unfold PQ.insert
  rw [PQ.sift_up_use_max]

lemma PQ.insert_perm (q : PQ) (t : Task) : (q.insert t).heap.Perm (q.heap ++ [t]) := by
  unfold PQ.insert
  have hm : (q.heap ++ [t]).length - 1 = q.heap.length := by simp
  rw [hm]
  exact PQ.sift_up_perm _ _ (by simp)

lemma PQ.insert_length (q : PQ) (t : Task) :
    (q.insert t).heap.length = q.heap.length + 1 := by
  rw [(PQ.insert_perm q t).length_eq]
  simp

lemma PQ.insert_heapInv {q : PQ} (hInv : q.heapInv) (t : Task) : (q.insert t).heapInv := by
  unfold PQ.insert
  have hm : (q.heap ++ [t]).length - 1 = q.heap.length := by simp
  rw [hm]
  apply PQ.sift_up_heapInv _ _ (by simp)
  constructor
  · intro i j hc hj hji
    have hj1 : j < q.heap.length + 1 := by simpa using hj
    have hjm : j < q.heap.length := by omega
    have him : i < q.heap.length := lt_trans (childOf_lt hc) hjm
    show q.key (heapGet (q.heap ++ [t]) j) ≤ q.key (heapGet (q.heap ++ [t]) i)
    rw [heapGet_append_lt hjm, heapGet_append_lt him]
    exact hInv i j hc hjm
  · intro h0 j hc hj
    have hj1 : j < q.heap.length + 1 := by simpa using hj
    rcases hc with rfl | rfl <;> omega

lemma PQ.insert_posOK {q : PQ} (hpos : q.posOK) (t : Task) : (q.insert t).posOK := by
  unfold PQ.insert
  have hm : (q.heap ++ [t]).length - 1 = q.heap.length := by simp
  rw [hm]
  apply PQ.sift_up_posOK _ _ (by simp)
  constructor
  · intro id
    show (pyUpdate q.position t.task_id q.heap.length id).isSome ↔
      id ∈ (q.heap ++ [t]).map Task.task_id
    unfold pyUpdate
    split_ifs with hid
    · subst hid
      simp
    · rw [List.map_append]
      simp only [List.mem_append]
      constructor
      · intro hs
        exact Or.inl ((hpos.1 id).mp hs)
      · rintro (hmem | hmem)
        · exact (hpos.1 id).mpr hmem
        · simp at hmem
          exact absurd hmem hid
  · intro id k hk
    replace hk : (pyUpdate q.position t.task_id q.heap.length) id = some k := hk
    unfold pyUpdate at hk
    split_ifs at hk with hid
    · obtain rfl : q.heap.length = k := Option.some.inj hk
      subst hid
      refine ⟨by simp, ?_⟩
      rw [heapGet_append_len]
    · obtain ⟨hklen, hkid⟩ := hpos.2 id k hk
      refine ⟨by simp; omega, ?_⟩
      rw [heapGet_append_lt hklen]
      exact hkid

lemma PQ.insert_nodupIds {q : PQ} {t : Task} (hn : q.nodupIds)
    (hfresh : t.task_id ∉ q.heap.map Task.task_id) : (q.insert t).nodupIds := by
  refine (((PQ.insert_perm q t).map Task.task_id).nodup_iff).mpr ?_
  rw [List.map_append]
  simp [List.nodup_append, hfresh]
  exact hn

lemma PQ.insert_pos_isSome (q : PQ) (t : Task) :
    ((q.insert t).position t.task_id).isSome := by
  unfold PQ.insert
  apply PQ.sift_up_pos_isSome
  show (pyUpdate q.position t.task_id ((q.heap ++ [t]).length - 1) t.task_id).isSome
  simp [pyUpdate]

end Prqueue

namespace Prqueue

lemma PQ.extract_top_empty {q : PQ} (h : q.heap = []) : q.extract_top = none := by
  simp [PQ.extract_top, h]

lemma PQ.extract_top_small {q : PQ} (h : q.heap.length = 1) :
    q.extract_top = some (heapGet q.heap 0,
      { q with heap := [], position := pyDelete q.position (heapGet q.heap 0).task_id }) := by
  have hne : q.heap ≠ [] := by
    intro hc
    rw [hc] at h
    simp at h
  have h2 : q.heap.dropLast = [] := by
    rw [← List.length_eq_zero, List.length_dropLast, h]
  simp [PQ.extract_top, List.isEmpty_iff, hne, h2]

lemma PQ.extract_top_big {q : PQ} (h : 2 ≤ q.heap.length) :
    q.extract_top = some (heapGet q.heap 0,
      PQ.sift_down
        { q with
          heap := q.heap.dropLast.set 0 (heapGet q.heap (q.heap.length - 1))
          position := pyUpdate (pyDelete q.position (heapGet q.heap 0).task_id)
            (heapGet q.heap (q.heap.length - 1)).task_id 0 } 0) := by
  have hne : q.heap ≠ [] := by
    intro hc
    rw [hc] at h
    simp at h
  have h2 : q.heap.dropLast ≠ [] := by
    intro hc
    have := congrArg List.length hc
    simp at this
    omega
  simp [PQ.extract_top, List.isEmpty_iff, hne, h2]

lemma PQ.extract_top_props {q : PQ} {t : Task} {q' : PQ}
    (h : q.extract_top = some (t, q')) :
    q'.use_max_heap = q.use_max_heap ∧ t = heapGet q.heap 0 ∧
      (q'.heap ++ [t]).Perm q.heap := by
  rcases Nat.lt_or_ge q.heap.length 2 with hsm | hbig
  · rcases Nat.lt_or_ge q.heap.length 1 with h0 | h1
    · have : q.heap = [] := by
        rw [← List.length_eq_zero]
        omega
      rw [PQ.extract_top_empty this] at h
      cases h
    · have hone : q.heap.length = 1 := by omega
      rw [PQ.extract_top_small hone] at h
      obtain ⟨rfl, rfl⟩ := Prod.mk.injEq .. ▸ Option.some.inj h
      obtain ⟨a, ha⟩ := List.length_eq_one.mp hone
      refine ⟨rfl, rfl, ?_⟩
      show ([] ++ [heapGet q.heap 0]).Perm q.heap
      have hg : heapGet q.heap 0 = a := by
        rw [ha]
        simp [heapGet]
      rw [List.nil_append, hg, ha]
  · rw [PQ.extract_top_big hbig] at h
    obtain ⟨rfl, rfl⟩ := Prod.mk.injEq .. ▸ Option.some.inj h
    refine ⟨(PQ.sift_down_use_max ..).trans rfl, rfl, ?_⟩
    have hlast : heapGet q.heap (q.heap.length - 1)
        = q.heap.getLast (by rw [← List.length_pos] at *; omega) := by
      rw [List.getLast_eq_getElem]
      simp [heapGet, List.getElem?_eq_getElem (by omega : q.heap.length - 1 < q.heap.length)]
    have hr0 : q.heap.dropLast[0]? = some (heapGet q.heap 0) := by
      have hb : 0 < q.heap.dropLast.length := by
        rw [List.length_dropLast]
        omega
      rw [getElem?_of_heapGet hb, heapGet_dropLast (by rw [List.length_dropLast] at hb; omega)]
    have p1 : ((PQ.sift_down
        { q with
          heap := q.heap.dropLast.set 0 (heapGet q.heap (q.heap.length - 1))
          position := pyUpdate (pyDelete q.position (heapGet q.heap 0).task_id)
            (heapGet q.heap (q.heap.length - 1)).task_id 0 } 0).heap).Perm
        (q.heap.dropLast.set 0 (heapGet q.heap (q.heap.length - 1))) :=
      PQ.sift_down_perm ..
    have p2 : ((q.heap.dropLast.set 0 (heapGet q.heap (q.heap.length - 1)))
        ++ [heapGet q.heap 0]).Perm
        (q.heap.dropLast ++ [heapGet q.heap (q.heap.length - 1)]) :=
      set_append_perm _ hr0
    have p3 : q.heap.dropLast ++ [heapGet q.heap (q.heap.length - 1)] = q.heap := by
      rw [hlast]
      exact List.dropLast_append_getLast _
    have p4 : (q.heap.dropLast ++ [heapGet q.heap (q.heap.length - 1)]).Perm q.heap := by
      rw [p3]
    exact ((p1.append_right [heapGet q.heap 0]).trans p2).trans p4

lemma PQ.extract_top_mem {q : PQ} {t : Task} {q' : PQ}
    (h : q.extract_top = some (t, q')) {x : Task} (hx : x ∈ q'.heap) : x ∈ q.heap := by
  have hp := (PQ.extract_top_props h).2.2
  exact hp.mem_iff.mp (by simp [hx])

lemma PQ.extract_top_heapInv {q : PQ} {t : Task} {q' : PQ} (hInv : q.heapInv)
    (h : q.extract_top = some (t, q')) : q'.heapInv := by
  rcases Nat.lt_or_ge q.heap.length 2 with hsm | hbig
  · rcases Nat.lt_or_ge q.heap.length 1 with h0 | h1
    · have : q.heap = [] := by
        rw [← List.length_eq_zero]
        omega
      rw [PQ.extract_top_empty this] at h
      cases h
    · have hone : q.heap.length = 1 := by omega
      rw [PQ.extract_top_small hone] at h
      obtain ⟨rfl, rfl⟩ := Prod.mk.injEq .. ▸ Option.some.inj h
      intro i j hc hj
      simp at hj
  · rw [PQ.extract_top_big hbig] at h
    obtain ⟨rfl, rfl⟩ := Prod.mk.injEq .. ▸ Option.some.inj h
    apply PQ.sift_down_heapInv
    constructor
    · intro i j hc hj hii
      have hlen2 : (q.heap.dropLast.set 0 (heapGet q.heap (q.heap.length - 1))).length
          = q.heap.length - 1 := by
        simp [List.length_dropLast]
      rw [hlen2] at hj
      have hij : i < j := childOf_lt hc
      have hj0 : j ≠ 0 := by omega
      show q.key (heapGet (q.heap.dropLast.set 0 _) j)
        ≤ q.key (heapGet (q.heap.dropLast.set 0 _) i)
      rw [heapGet_set_ne (Ne.symm hj0), heapGet_set_ne (Ne.symm hii),
        heapGet_dropLast hj, heapGet_dropLast (by omega)]
      exact hInv i j hc (by omega)
    · intro h0
      omega

end Prqueue

namespace Prqueue

lemma PQ.extract_top_posOK {q : PQ} {t : Task} {q' : PQ} (hpos : q.posOK)
    (hnd : q.nodupIds) (h : q.extract_top = some (t, q')) : q'.posOK ∧ q'.nodupIds := by
  rcases Nat.lt_or_ge q.heap.length 2 with hsm | hbig
  · rcases Nat.lt_or_ge q.heap.length 1 with h0 | h1
    · have : q.heap = [] := by
        rw [← List.length_eq_zero]
        omega
      rw [PQ.extract_top_empty this] at h
      cases h
    · have hone : q.heap.length = 1 := by omega
      rw [PQ.extract_top_small hone] at h
      obtain ⟨rfl, rfl⟩ := Prod.mk.injEq .. ▸ Option.some.inj h
      refine ⟨⟨?_, ?_⟩, ?_⟩
      · intro id
        show (pyDelete q.position (heapGet q.heap 0).task_id id).isSome ↔
          id ∈ ([] : List Task).map Task.task_id
        simp only [pyDelete]
        split_ifs with h1
        · simp
        · simp only [List.map_nil, List.not_mem_nil, iff_false]
          intro hs
          obtain ⟨k, hk⟩ := Option.isSome_iff_exists.mp hs
          obtain ⟨hklen, hkid⟩ := hpos.2 id k hk
          have hk0 : k = 0 := by omega
          subst hk0
          exact h1 hkid.symm
      · intro id k hk
        replace hk : pyDelete q.position (heapGet q.heap 0).task_id id = some k := hk
        simp only [pyDelete] at hk
        split_ifs at hk with h1
        obtain ⟨hklen, hkid⟩ := hpos.2 id k hk
        have hk0 : k = 0 := by omega
        subst hk0
        exact absurd hkid.symm h1
      · show ([] : List Task).map Task.task_id |>.Nodup
        simp
  · rw [PQ.extract_top_big hbig] at h
    obtain ⟨rfl, rfl⟩ := Prod.mk.injEq .. ▸ Option.some.inj h
    have hrlen : q.heap.dropLast.length = q.heap.length - 1 := List.length_dropLast _
    have hr0 : 0 < q.heap.dropLast.length := by omega
    have hq2len : (q.heap.dropLast.set 0 (heapGet q.heap (q.heap.length - 1))).length
        = q.heap.length - 1 := by
      simp [hrlen]
    have hr0' : q.heap.dropLast[0]? = some (heapGet q.heap 0) := by
      rw [getElem?_of_heapGet hr0, heapGet_dropLast (by omega)]
    have hperm2 : ((q.heap.dropLast.set 0 (heapGet q.heap (q.heap.length - 1)))
        ++ [heapGet q.heap 0]).Perm q.heap := by
      have p2 := set_append_perm (l := q.heap.dropLast)
        (heapGet q.heap (q.heap.length - 1)) hr0'
      have p3 : q.heap.dropLast ++ [heapGet q.heap (q.heap.length - 1)] = q.heap := by
        have hlast : heapGet q.heap (q.heap.length - 1)
            = q.heap.getLast (by intro hc; rw [hc] at hbig; simp at hbig) := by
          rw [List.getLast_eq_getElem]
          simp [heapGet,
            List.getElem?_eq_getElem (by omega : q.heap.length - 1 < q.heap.length)]
        rw [hlast]
        exact List.dropLast_append_getLast _
      exact p2.trans (by rw [p3])
    have hidperm : ((q.heap.dropLast.set 0 (heapGet q.heap (q.heap.length - 1))).map
        Task.task_id ++ [(heapGet q.heap 0).task_id]).Perm
        (q.heap.map Task.task_id) := by
      have := hperm2.map Task.task_id
      simpa using this
    have hnodup2 : ((q.heap.dropLast.set 0 (heapGet q.heap (q.heap.length - 1))).map
        Task.task_id).Nodup ∧ (heapGet q.heap 0).task_id ∉
        ((q.heap.dropLast.set 0 (heapGet q.heap (q.heap.length - 1))).map
          Task.task_id) := by
      have hn2 := (hidperm.nodup_iff).mpr hnd
      rw [List.nodup_append] at hn2
      refine ⟨hn2.1, ?_⟩
      intro hc
      exact (hn2.2.2 hc) (by simp)
    have hlastmem : (heapGet q.heap (q.heap.length - 1)).task_id ∈
        (q.heap.dropLast.set 0 (heapGet q.heap (q.heap.length - 1))).map
          Task.task_id :=
      mem_map_id_iff.mpr ⟨0, by omega, by rw [heapGet_set_self hr0]⟩
    have htl : (heapGet q.heap 0).task_id ≠
        (heapGet q.heap (q.heap.length - 1)).task_id := by
      intro hc
      rw [hc] at hnodup2
      exact hnodup2.2 hlastmem
    have hpos2 : (PQ.mk q.use_max_heap
        (q.heap.dropLast.set 0 (heapGet q.heap (q.heap.length - 1)))
        (pyUpdate (pyDelete q.position (heapGet q.heap 0).task_id)
          (heapGet q.heap (q.heap.length - 1)).task_id 0)).posOK := by
      constructor
      · intro id
        show (pyUpdate (pyDelete q.position (heapGet q.heap 0).task_id)
          (heapGet q.heap (q.heap.length - 1)).task_id 0 id).isSome ↔ _
        simp only [pyUpdate, pyDelete]
        split_ifs with h1 h2
        · subst h1
          simpa using hlastmem
        · subst h2
          simpa using hnodup2.2
        · rw [hpos.1 id, ← hidperm.mem_iff]
          simp only [List.mem_append, List.mem_singleton]
          constructor
          · rintro (hm | hm)
            · exact hm
            · exact absurd hm h2
          · intro hm
            exact Or.inl hm
      · intro id k hk
        replace hk : pyUpdate (pyDelete q.position (heapGet q.heap 0).task_id)
          (heapGet q.heap (q.heap.length - 1)).task_id 0 id = some k := hk
        simp only [pyUpdate, pyDelete] at hk
        split_ifs at hk with h1 h2
        · obtain rfl : (0 : Nat) = k := Option.some.inj hk
          refine ⟨by rw [hq2len]; omega, ?_⟩
          rw [heapGet_set_self hr0, ← h1]
        · obtain ⟨hklen, hkid⟩ := hpos.2 id k hk
          have hk0 : k ≠ 0 := by
            intro hc
            subst hc
            exact h2 hkid.symm
          have hkm : k ≠ q.heap.length - 1 := by
            intro hc
            subst hc
            exact h1 hkid.symm
          refine ⟨by rw [hq2len]; omega, ?_⟩
          rw [heapGet_set_ne (Ne.symm hk0), heapGet_dropLast (by omega)]
          exact hkid
    constructor
    · exact PQ.sift_down_posOK _ _ hpos2
    · show ((PQ.sift_down _ 0).heap.map Task.task_id).Nodup
      exact (((PQ.sift_down_perm _ 0).map Task.task_id).nodup_iff).mpr hnodup2.1

end Prqueue

namespace Prqueue

lemma PQ.posOK_transport {q q1 : PQ} (hpos : q.posOK)
    (hpos_eq : q1.position = q.position)
    (hmap : q1.heap.map Task.task_id = q.heap.map Task.task_id) : q1.posOK := by
  have hlen : q1.heap.length = q.heap.length := by
    have h2 := congrArg List.length hmap
    rwa [List.length_map, List.length_map] at h2
  constructor
  · intro id
    rw [hpos_eq, hmap]
    exact hpos.1 id
  · intro id k hk
    rw [hpos_eq] at hk
    obtain ⟨hklen, hkid⟩ := hpos.2 id k hk
    refine ⟨by omega, ?_⟩
    have hmk : (q1.heap.map Task.task_id)[k]? = (q.heap.map Task.task_id)[k]? := by
      rw [hmap]
    rw [List.getElem?_map, List.getElem?_map, getElem?_of_heapGet (by omega),
      getElem?_of_heapGet hklen] at hmk
    simp at hmk
    rw [hmk]
    exact hkid

lemma PQ.upInv_of_keyAt_ge {q q1 : PQ} {idx : Nat} (hInv : q.heapInv)
    (hidx : idx < q.heap.length) (hlen : q1.heap.length = q.heap.length)
    (hsame : ∀ k, k ≠ idx → q1.keyAt k = q.keyAt k)
    (hge : q.keyAt idx ≤ q1.keyAt idx) : q1.upInv idx := by
  constructor
  · intro i j hc hj hji
    rw [hlen] at hj
    rw [hsame j hji]
    by_cases hii : idx = i
    · subst hii
      exact le_trans (hInv _ _ hc hj) hge
    · rw [hsame i (Ne.symm hii)]
      exact hInv _ _ hc hj
  · intro h0 j hc hj
    rw [hlen] at hj
    have hji : j ≠ idx := by
      have := childOf_lt hc
      omega
    have hpi : (idx - 1) / 2 ≠ idx := by omega
    rw [hsame j hji, hsame _ hpi]
    exact le_trans (hInv _ _ hc hj) (hInv _ _ (childOf_of_parent h0) hidx)

lemma PQ.downInv_of_keyAt_le {q q1 : PQ} {idx : Nat} (hInv : q.heapInv)
    (hidx : idx < q.heap.length) (hlen : q1.heap.length = q.heap.length)
    (hsame : ∀ k, k ≠ idx → q1.keyAt k = q.keyAt k)
    (hle : q1.keyAt idx ≤ q.keyAt idx) : q1.downInv idx := by
  constructor
  · intro i j hc hj hii
    rw [hlen] at hj
    rw [hsame i hii]
    by_cases hji : idx = j
    · subst hji
      exact le_trans hle (hInv _ _ hc hj)
    · rw [hsame j (Ne.symm hji)]
      exact hInv _ _ hc hj
  · intro h0 j hc hj
    rw [hlen] at hj
    have hji : j ≠ idx := by
      have := childOf_lt hc
      omega
    have hpi : (idx - 1) / 2 ≠ idx := by omega
    rw [hsame j hji, hsame _ hpi]
    exact le_trans (hInv _ _ hc hj) (hInv _ _ (childOf_of_parent h0) hidx)

lemma PQ.increase_key_heapInv {q : PQ} {id : String} {p : Int} {q' : PQ}
    (hInv : q.heapInv) (h : q.increase_key id p = some q') : q'.heapInv := by
  unfold PQ.increase_key at h
  split at h
  · cases h
  · rename_i idx hpq
    by_cases hlen : idx < q.heap.length
    case neg =>
      rw [if_neg hlen] at h
      cases h
    rw [if_pos hlen] at h
    obtain rfl := Option.some.inj h
    have hlen1 : (PQ.mk q.use_max_heap
        (q.heap.set idx { heapGet q.heap idx with priority := p })
        q.position).heap.length = q.heap.length := by simp
    have hsame : ∀ k, k ≠ idx → (PQ.mk q.use_max_heap
        (q.heap.set idx { heapGet q.heap idx with priority := p })
        q.position).keyAt k = q.keyAt k := by
      intro k hk
      show q.key (heapGet (q.heap.set idx _) k) = q.key (heapGet q.heap k)
      rw [heapGet_set_ne (fun he => hk he.symm)]
    have hkey1 : (PQ.mk q.use_max_heap
        (q.heap.set idx { heapGet q.heap idx with priority := p })
        q.position).keyAt idx = q.key { heapGet q.heap idx with priority := p } := by
      show q.key (heapGet (q.heap.set idx _) idx) = _
      rw [heapGet_set_self hlen]
    by_cases hmode : q.use_max_heap = true
    · rw [if_pos hmode]
      by_cases hcmp : (heapGet q.heap idx).priority ≤ p
      · rw [if_pos hcmp]
        apply PQ.sift_up_heapInv _ _ (by simpa using hlen)
        apply PQ.upInv_of_keyAt_ge hInv hlen hlen1 hsame
        rw [hkey1]
        show q.key _ ≤ q.key _
        simp [PQ.key, hmode]
        omega
      · rw [if_neg hcmp]
        apply PQ.sift_down_heapInv
        apply PQ.downInv_of_keyAt_le hInv hlen hlen1 hsame
        rw [hkey1]
        show q.key _ ≤ q.key _
        simp [PQ.key, hmode]
        omega
    · rw [if_neg hmode]
      by_cases hcmp : (heapGet q.heap idx).priority ≤ p
      · rw [if_pos hcmp]
        apply PQ.sift_down_heapInv
        apply PQ.downInv_of_keyAt_le hInv hlen hlen1 hsame
        rw [hkey1]
        show q.key _ ≤ q.key _
        simp [PQ.key, hmode]
        omega
      · rw [if_neg hcmp]
        apply PQ.sift_up_heapInv _ _ (by simpa using hlen)
        apply PQ.upInv_of_keyAt_ge hInv hlen hlen1 hsame
        rw [hkey1]
        show q.key _ ≤ q.key _
        simp [PQ.key, hmode]
        omega

lemma PQ.increase_key_props {q : PQ} {id : String} {p : Int} {q' : PQ}
    (h : q.increase_key id p = some q') :
    q'.use_max_heap = q.use_max_heap ∧
      (q'.heap.map Task.task_id).Perm (q.heap.map Task.task_id) ∧
      q'.heap.length = q.heap.length := by
  unfold PQ.increase_key at h
  split at h
  · cases h
  · rename_i idx hpq
    by_cases hlen : idx < q.heap.length
    case neg =>
      rw [if_neg hlen] at h
      cases h
    rw [if_pos hlen] at h
    obtain rfl := Option.some.inj h
    have hmap : (q.heap.set idx { heapGet q.heap idx with priority := p }).map
        Task.task_id = q.heap.map Task.task_id := by
      rw [List.map_set]
      apply set_self_of_getElem
      rw [List.getElem?_map, getElem?_of_heapGet hlen]
      rfl
    have core : ∀ q2 : PQ,
        q2 = (PQ.mk q.use_max_heap
          (q.heap.set idx { heapGet q.heap idx with priority := p })
          q.position).sift_up idx ∨
        q2 = (PQ.mk q.use_max_heap
          (q.heap.set idx { heapGet q.heap idx with priority := p })
          q.position).sift_down idx →
        q2.use_max_heap = q.use_max_heap ∧
          (q2.heap.map Task.task_id).Perm (q.heap.map Task.task_id) ∧
          q2.heap.length = q.heap.length := by
      rintro q2 (rfl | rfl)
      · refine ⟨PQ.sift_up_use_max .., ?_, ?_⟩
        · exact ((PQ.sift_up_perm _ _ (by simpa using hlen)).map Task.task_id).trans
            (by rw [hmap])
        · rw [PQ.length_sift_up]
          simp
      · refine ⟨PQ.sift_down_use_max .., ?_, ?_⟩
        · exact ((PQ.sift_down_perm _ _).map Task.task_id).trans (by rw [hmap])
        · rw [PQ.length_sift_down]
          simp
    split_ifs with hmode hcmp hcmp
    · exact core _ (Or.inl rfl)
    · exact core _ (Or.inr rfl)
    · exact core _ (Or.inr rfl)
    · exact core _ (Or.inl rfl)

lemma PQ.increase_key_posOK {q : PQ} {id : String} {p : Int} {q' : PQ}
    (hpos : q.posOK) (h : q.increase_key id p = some q') : q'.posOK := by
  unfold PQ.increase_key at h
  split at h
  · cases h
  · rename_i idx hpq
    by_cases hlen : idx < q.heap.length
    case neg =>
      rw [if_neg hlen] at h
      cases h
    rw [if_pos hlen] at h
    obtain rfl := Option.some.inj h
    have hmap : (q.heap.set idx { heapGet q.heap idx with priority := p }).map
        Task.task_id = q.heap.map Task.task_id := by
      rw [List.map_set]
      apply set_self_of_getElem
      rw [List.getElem?_map, getElem?_of_heapGet hlen]
      rfl
    have hpos1 : (PQ.mk q.use_max_heap
        (q.heap.set idx { heapGet q.heap idx with priority := p })
        q.position).posOK := PQ.posOK_transport hpos rfl hmap
    split_ifs with hmode hcmp hcmp
    · exact PQ.sift_up_posOK _ _ (by simpa using hlen) hpos1
    · exact PQ.sift_down_posOK _ _ hpos1
    · exact PQ.sift_down_posOK _ _ hpos1
    · exact PQ.sift_up_posOK _ _ (by simpa using hlen) hpos1

lemma PQ.increase_key_nodupIds {q : PQ} {id : String} {p : Int} {q' : PQ}
    (hnd : q.nodupIds) (h : q.increase_key id p = some q') : q'.nodupIds :=
  (((PQ.increase_key_props h).2.1).nodup_iff).mpr hnd

end Prqueue

namespace Prqueue

lemma PQ.empty_heapInv (mode : Bool) : (PQ.empty mode).heapInv := by
  intro i j hc hj
  simp [PQ.empty] at hj

lemma PQ.empty_posOK (mode : Bool) : (PQ.empty mode).posOK := by
  constructor
  · intro id
    simp [PQ.empty]
  · intro id k hk
    simp [PQ.empty] at hk

lemma PQ.empty_nodupIds (mode : Bool) : (PQ.empty mode).nodupIds := by
  simp [PQ.nodupIds, PQ.empty]

lemma PQ.applyOp_heapInv {q : PQ} (hInv : q.heapInv) (op : Op) :
    (applyOp q op).heapInv := by
  cases op with
  | insert t => exact PQ.insert_heapInv hInv t
  | extract =>
    show (match q.extract_top with | none => q | some tq => tq.2).heapInv
    cases hx : q.extract_top with
    | none => exact hInv
    | some tq =>
      obtain ⟨t, q'⟩ := tq
      exact PQ.extract_top_heapInv hInv hx
  | update id p =>
    show (match q.increase_key id p with | none => q | some q' => q').heapInv
    cases hx : q.increase_key id p with
    | none => exact hInv
    | some q' => exact PQ.increase_key_heapInv hInv hx
  | decrease id p =>
    show (match q.decrease_key id p with | none => q | some q' => q').heapInv
    cases hx : q.decrease_key id p with
    | none => exact hInv
    | some q' => exact PQ.increase_key_heapInv hInv hx

lemma PQ.applyOps_heapInv {q : PQ} (hInv : q.heapInv) (ops : List Op) :
    (applyOps q ops).heapInv := by
  induction ops generalizing q with
  | nil => exact hInv
  | cons op ops ih => exact ih (PQ.applyOp_heapInv hInv op)

lemma PQ.applyOps_posOK {q : PQ} (ops : List Op) (hpos : q.posOK) (hnd : q.nodupIds)
    (hins : (insertIds ops).Nodup)
    (hdisj : ∀ id ∈ insertIds ops, id ∉ q.heap.map Task.task_id) :
    (applyOps q ops).posOK ∧ (applyOps q ops).nodupIds := by
  induction ops generalizing q with
  | nil => exact ⟨hpos, hnd⟩
  | cons op ops ih =>
    cases op with
    | insert t =>
      have hins' : (t.task_id :: insertIds ops).Nodup := hins
      have hfresh : t.task_id ∉ q.heap.map Task.task_id :=
        hdisj _ (by show t.task_id ∈ t.task_id :: insertIds ops; simp)
      refine ih (PQ.insert_posOK hpos t) (PQ.insert_nodupIds hnd hfresh)
        ((List.nodup_cons.mp hins').2 : (insertIds ops).Nodup) ?_
      intro id hid
      show id ∉ (q.insert t).heap.map Task.task_id
      have hperm : ((q.insert t).heap.map Task.task_id).Perm
          (q.heap.map Task.task_id ++ [t.task_id]) := by
        have h2 := (PQ.insert_perm q t).map Task.task_id
        rw [List.map_append] at h2
        exact h2
      rw [hperm.mem_iff]
      simp only [List.mem_append, List.mem_singleton]
      rintro (hm | rfl)
      · exact hdisj id (by show id ∈ t.task_id :: insertIds ops; simp [hid]) hm
      · exact (List.nodup_cons.mp hins').1 hid
    | extract =>
      show ((applyOps (match q.extract_top with | none => q | some tq => tq.2) ops)).posOK
        ∧ ((applyOps (match q.extract_top with | none => q | some tq => tq.2) ops)).nodupIds
      cases hx : q.extract_top with
      | none => exact ih hpos hnd hins hdisj
      | some tq =>
        obtain ⟨t, q'⟩ := tq
        obtain ⟨hpos', hnd'⟩ := PQ.extract_top_posOK hpos hnd hx
        refine ih hpos' hnd' hins ?_
        intro id hid hmem
        have hidperm : (q'.heap.map Task.task_id ++ [t.task_id]).Perm
            (q.heap.map Task.task_id) := by
          have h2 := ((PQ.extract_top_props hx).2.2).map Task.task_id
          rw [List.map_append] at h2
          exact h2
        exact hdisj id hid (hidperm.mem_iff.mp (by simp [hmem]))
    | update uid p =>
      show ((applyOps (match q.increase_key uid p with | none => q | some q' => q') ops)).posOK
        ∧ ((applyOps (match q.increase_key uid p with | none => q | some q' => q') ops)).nodupIds
      cases hx : q.increase_key uid p with
      | none => exact ih hpos hnd hins hdisj
      | some q' =>
        refine ih (PQ.increase_key_posOK hpos hx) (PQ.increase_key_nodupIds hnd hx)
          hins ?_
        intro id hid hmem
        exact hdisj id hid (((PQ.increase_key_props hx).2.1).mem_iff.mp hmem)
    | decrease uid p =>
      show ((applyOps (match q.decrease_key uid p with | none => q | some q' => q') ops)).posOK
        ∧ ((applyOps (match q.decrease_key uid p with | none => q | some q' => q') ops)).nodupIds
      cases hx : q.decrease_key uid p with
      | none => exact ih hpos hnd hins hdisj
      | some q' =>
        refine ih (PQ.increase_key_posOK hpos hx) (PQ.increase_key_nodupIds hnd hx)
          hins ?_
        intro id hid hmem
        exact hdisj id hid (((PQ.increase_key_props hx).2.1).mem_iff.mp hmem)

end Prqueue

namespace Prqueue

lemma PQ.key_eq_effKey (q : PQ) (t : Task) : q.key t = effKey q.use_max_heap t := rfl

lemma PQ.root_max {q : PQ} (hInv : q.heapInv) :
    ∀ i, i < q.heap.length → q.keyAt i ≤ q.keyAt 0 := by
  intro i
  induction i using Nat.strong_induction_on with
  | _ i ih =>
    intro hi
    rcases Nat.eq_zero_or_pos i with rfl | h0
    · exact le_refl _
    · exact le_trans (hInv _ _ (childOf_of_parent h0) hi) (ih _ (by omega) (by omega))

lemma PQ.drain_none {q : PQ} (hx : q.extract_top = none) : q.drain = [] := by
  rw [PQ.drain]
  split
  · rfl
  · next t q' heq =>
    rw [hx] at heq
    cases heq

lemma PQ.drain_some {q : PQ} {t : Task} {q' : PQ} (hx : q.extract_top = some (t, q')) :
    q.drain = t :: q'.drain := by
  rw [PQ.drain]
  split
  · next heq =>
    rw [hx] at heq
    cases heq
  · next t2 q2 heq =>
    rw [hx] at heq
    obtain ⟨rfl, rfl⟩ := Prod.mk.injEq .. ▸ Option.some.inj heq
    rfl

lemma PQ.extract_top_none_length {q : PQ} (hx : q.extract_top = none) :
    q.heap.length = 0 := by
  by_contra hc
  rcases Nat.lt_or_ge q.heap.length 2 with hsm | hbig
  · have hone : q.heap.length = 1 := by omega
    rw [PQ.extract_top_small hone] at hx
    cases hx
  · rw [PQ.extract_top_big hbig] at hx
    cases hx

lemma PQ.drain_length (q : PQ) : q.drain.length = q.heap.length := by
  suffices h : ∀ n (q : PQ), q.heap.length = n → q.drain.length = q.heap.length from
    h _ q rfl
  intro n
  induction n using Nat.strong_induction_on with
  | _ n ih =>
    intro q hn
    cases hx : q.extract_top with
    | none =>
      rw [PQ.drain_none hx, PQ.extract_top_none_length hx]
      rfl
    | some tq =>
      obtain ⟨t, q'⟩ := tq
      have hlen := PQ.extract_top_length hx
      rw [PQ.drain_some hx]
      show (q'.drain).length + 1 = q.heap.length
      rw [ih q'.heap.length (by omega) q' rfl]
      exact hlen

lemma PQ.drain_sorted (q : PQ) (hInv : q.heapInv) :
    List.Chain' (fun a b => effKey q.use_max_heap b ≤ effKey q.use_max_heap a)
      q.drain := by
  suffices h : ∀ n (q : PQ), q.heap.length = n → q.heapInv →
      List.Chain' (fun a b => effKey q.use_max_heap b ≤ effKey q.use_max_heap a)
        q.drain from h _ q rfl hInv
  clear hInv q
  intro n
  induction n using Nat.strong_induction_on with
  | _ n ih =>
    intro q hn hInv
    cases hx : q.extract_top with
    | none =>
      rw [PQ.drain_none hx]
      exact List.chain'_nil
    | some tq =>
      obtain ⟨t, q'⟩ := tq
      rw [PQ.drain_some hx]
      have hprops := PQ.extract_top_props hx
      have hInv' := PQ.extract_top_heapInv hInv hx
      have hlen := PQ.extract_top_length hx
      have hchain := ih q'.heap.length (by omega) q' rfl hInv'
      rw [List.chain'_cons']
      constructor
      · intro y hy
        cases hx' : q'.extract_top with
        | none =>
          rw [PQ.drain_none hx'] at hy
          simp at hy
        | some tq2 =>
          obtain ⟨t2, q2⟩ := tq2
          rw [PQ.drain_some hx'] at hy
          simp only [List.head?_cons, Option.mem_def, Option.some.injEq] at hy
          subst hy
          have ht2 : t2 = heapGet q'.heap 0 := (PQ.extract_top_props hx').2.1
          have hne' : q'.heap.length ≠ 0 := by
            intro hc
            rw [PQ.extract_top_empty (List.length_eq_zero.mp hc)] at hx'
            cases hx'
          have ht2mem : t2 ∈ q'.heap := by
            rw [ht2]
            exact heapGet_mem (by omega)
          have ht2q : t2 ∈ q.heap := PQ.extract_top_mem hx ht2mem
          obtain ⟨k, hk, hkt⟩ := mem_iff_heapGet.mp ht2q
          have hroot := PQ.root_max hInv k hk
          have ht : t = heapGet q.heap 0 := hprops.2.1
          show effKey q.use_max_heap t2 ≤ effKey q.use_max_heap t
          rw [← PQ.key_eq_effKey, ← PQ.key_eq_effKey, ht, ← hkt]
          exact hroot
      · have hmode : q'.use_max_heap = q.use_max_heap := hprops.1
        rw [← hmode]
        exact hchain

lemma PQ.foldl_insert_heapInv (tasks : List Task) (q : PQ) (hInv : q.heapInv) :
    (tasks.foldl PQ.insert q).heapInv := by
  induction tasks generalizing q with
  | nil => exact hInv
  | cons t tasks ih => exact ih _ (PQ.insert_heapInv hInv t)

lemma PQ.foldl_insert_use_max (tasks : List Task) (q : PQ) :
    (tasks.foldl PQ.insert q).use_max_heap = q.use_max_heap := by
  induction tasks generalizing q with
  | nil => rfl
  | cons t tasks ih => exact (ih _).trans (PQ.insert_use_max q t)

lemma PQ.foldl_insert_length (tasks : List Task) (q : PQ) :
    (tasks.foldl PQ.insert q).heap.length = q.heap.length + tasks.length := by
  induction tasks generalizing q with
  | nil => rfl
  | cons t tasks ih =>
    show (tasks.foldl PQ.insert (q.insert t)).heap.length = _
    rw [ih, PQ.insert_length, List.length_cons]
    omega

end Prqueue

namespace Prqueue

lemma insertByArrival_perm (t : Task) (l : List Task) :
    (insertByArrival t l).Perm (t :: l) := by
  induction l with
  | nil => exact List.Perm.refl _
  | cons u rest ih =>
    rw [insertByArrival]
    split
    · exact List.Perm.refl _
    · exact (ih.cons u).trans (List.Perm.swap t u rest)

lemma sortByArrival_perm (l : List Task) : (sortByArrival l).Perm l := by
  induction l with
  | nil => exact List.Perm.refl _
  | cons t rest ih =>
    rw [sortByArrival]
    exact (insertByArrival_perm t _).trans (ih.cons t)

lemma sortByArrival_length (l : List Task) : (sortByArrival l).length = l.length :=
  (sortByArrival_perm l).length_eq

lemma PQ.is_empty_iff (q : PQ) : q.is_empty = true ↔ q.heap.length = 0 := by
  simp [PQ.is_empty]

lemma PQ.extract_top_isSome {q : PQ} (h : q.heap.length ≠ 0) :
    q.extract_top.isSome := by
  rcases Nat.lt_or_ge q.heap.length 2 with hsm | hbig
  · have hone : q.heap.length = 1 := by omega
    rw [PQ.extract_top_small hone]
    rfl
  · rw [PQ.extract_top_big hbig]
    rfl

lemma arrOr0_eq_pyOr {t : Task} {time : Int} (h0 : 0 ≤ time)
    (h : time < arrOr0 t) : arrOr0 t = pyOr t.arrival_time time := by
  cases ha : t.arrival_time with
  | none =>
    simp only [arrOr0, pyOr, ha] at h ⊢
    omega
  | some v =>
    simp only [arrOr0, pyOr, ha] at h ⊢
    split_ifs at h ⊢ with hv
    · omega
    · rfl

lemma pyOr_gt {t : Task} {time : Int} (h0 : 0 ≤ time) (h : time < arrOr0 t) :
    time < pyOr t.arrival_time time := by
  rw [← arrOr0_eq_pyOr h0 h]
  exact h

lemma admitAll_ge (pending : List Task) (i : Nat) (q : PQ) (time : Int) :
    i ≤ (admitAll pending i q time).2 := by
  induction i, q, time using admitAll.induct pending with
  | case1 i q time h ih =>
    rw [admitAll, dif_pos h]
    omega
  | case2 i q time h =>
    rw [admitAll, dif_neg h]

lemma admitAll_le {pending : List Task} {i : Nat} {q : PQ} {time : Int}
    (hle : i ≤ pending.length) : (admitAll pending i q time).2 ≤ pending.length := by
  induction i, q, time using admitAll.induct pending with
  | case1 i q time h ih =>
    rw [admitAll, dif_pos h]
    exact ih (by omega)
  | case2 i q time h =>
    rw [admitAll, dif_neg h]
    exact hle

lemma admitAll_exit (pending : List Task) (i : Nat) (q : PQ) (time : Int) :
    ¬((admitAll pending i q time).2 < pending.length ∧
      arrOr0 (heapGet pending (admitAll pending i q time).2) ≤ time) := by
  induction i, q, time using admitAll.induct pending with
  | case1 i q time h ih =>
    rw [admitAll, dif_pos h]
    exact ih
  | case2 i q time h =>
    rw [admitAll, dif_neg h]
    exact h

lemma admitAll_progress {pending : List Task} {i : Nat} {q : PQ} {time : Int}
    (h1 : i < pending.length) (h2 : arrOr0 (heapGet pending i) ≤ time) :
    i + 1 ≤ (admitAll pending i q time).2 := by
  rw [admitAll, dif_pos (And.intro h1 h2)]
  exact admitAll_ge ..

lemma admitAll_heap (pending : List Task) (i : Nat) (q : PQ) (time : Int) :
    ∃ mid : List Task,
      pending.drop i = mid ++ pending.drop (admitAll pending i q time).2 ∧
      (admitAll pending i q time).1.heap.Perm (q.heap ++ mid) ∧
      (admitAll pending i q time).2 = i + mid.length := by
  induction i, q, time using admitAll.induct pending with
  | case1 i q time h ih =>
    obtain ⟨mid, hdrop, hperm, hlen⟩ := ih
    rw [admitAll, dif_pos h]
    refine ⟨heapGet pending i :: mid, ?_, ?_, ?_⟩
    · have hdi : pending.drop i = heapGet pending i :: pending.drop (i + 1) := by
        have h2 := List.getElem_cons_drop pending i h.1
        rw [← h2]
        simp [heapGet, List.getElem?_eq_getElem h.1]
      rw [hdi, hdrop]
      rfl
    · refine hperm.trans ?_
      have h3 := (PQ.insert_perm q (heapGet pending i)).append_right mid
      refine h3.trans ?_
      rw [List.append_assoc]
      exact List.Perm.refl _
    · rw [hlen]
      simp
      omega
  | case2 i q time h =>
    rw [admitAll, dif_neg h]
    exact ⟨[], by simp, by simp, by simp⟩

lemma admitAll_use_max (pending : List Task) (i : Nat) (q : PQ) (time : Int) :
    (admitAll pending i q time).1.use_max_heap = q.use_max_heap := by
  induction i, q, time using admitAll.induct pending with
  | case1 i q time h ih =>
    rw [admitAll, dif_pos h]
    exact ih.trans (PQ.insert_use_max ..)
  | case2 i q time h =>
    rw [admitAll, dif_neg h]

end Prqueue

namespace Prqueue

lemma simLoop_guard_false {pending : List Task} {i : Nat} {q : PQ}
    (hg : ¬(i < pending.length ∨ ¬q.is_empty = true)) :
    pending.drop i = [] ∧ q.heap = [] := by
  push_neg at hg
  constructor
  · exact List.drop_eq_nil_of_le (by omega)
  · rw [← List.length_eq_zero, ← PQ.is_empty_iff]
    exact hg.2

lemma simLoop_snd_multiset (fuel : Nat) :
    ∀ (pending : List Task) (i : Nat) (q : PQ) (time : Int)
      (tl res : List (Int × Task)),
      simLoop fuel pending i q time tl = some res →
      ((res.map Prod.snd : List Task) : Multiset Task)
        = ((tl.map Prod.snd : List Task) : Multiset Task)
          + ((pending.drop i : List Task) : Multiset Task)
          + ((q.heap : List Task) : Multiset Task) := by
  induction fuel with
  | zero =>
    intro pending i q time tl res h
    cases h
  | succ fuel ih =>
    intro pending i q time tl res h
    rw [simLoop] at h
    by_cases hg : i < pending.length ∨ ¬q.is_empty = true
    · rw [if_pos hg] at h
      obtain ⟨mid, hdrop, hperm, hi1⟩ := admitAll_heap pending i q time
      have hdropm : ((pending.drop i : List Task) : Multiset Task)
          = (mid : Multiset Task)
            + ((pending.drop (admitAll pending i q time).2 : List Task) : Multiset Task) := by
        rw [hdrop, ← Multiset.coe_add]
      have hpermm : (((admitAll pending i q time).1.heap : List Task) : Multiset Task)
          = ((q.heap : List Task) : Multiset Task) + (mid : Multiset Task) := by
        rw [Multiset.coe_eq_coe.mpr hperm, ← Multiset.coe_add]
      by_cases he : (admitAll pending i q time).1.is_empty = true
      · rw [if_pos he] at h
        rw [ih _ _ _ _ _ _ h, hdropm, hpermm]
        abel
      · rw [if_neg he] at h
        have hne : (admitAll pending i q time).1.heap.length ≠ 0 := by
          intro hc
          exact he ((PQ.is_empty_iff _).mpr hc)
        obtain ⟨⟨t, q2⟩, hx⟩ := Option.isSome_iff_exists.mp (PQ.extract_top_isSome hne)
        rw [hx] at h
        replace h : simLoop fuel pending (admitAll pending i q time).2 q2 (time + 1)
            (tl ++ [(time, t)]) = some res := h
        have key : ((q2.heap : List Task) : Multiset Task) + {t}
            = ((q.heap : List Task) : Multiset Task) + (mid : Multiset Task) := by
          have hp := (PQ.extract_top_props hx).2.2
          rw [← hpermm, ← Multiset.coe_eq_coe.mpr hp, ← Multiset.coe_add]
          simp
        have htl : (((tl ++ [(time, t)]).map Prod.snd : List Task) : Multiset Task)
            = ((tl.map Prod.snd : List Task) : Multiset Task) + {t} := by
          rw [List.map_append, ← Multiset.coe_add]
          simp
        rw [ih _ _ _ _ _ _ h, hdropm, htl]
        calc ((tl.map Prod.snd : List Task) : Multiset Task) + {t}
              + ((pending.drop (admitAll pending i q time).2 : List Task) : Multiset Task)
              + ((q2.heap : List Task) : Multiset Task)
            = ((tl.map Prod.snd : List Task) : Multiset Task)
              + ((pending.drop (admitAll pending i q time).2 : List Task) : Multiset Task)
              + (((q2.heap : List Task) : Multiset Task) + {t}) := by abel
          _ = ((tl.map Prod.snd : List Task) : Multiset Task)
              + ((pending.drop (admitAll pending i q time).2 : List Task) : Multiset Task)
              + (((q.heap : List Task) : Multiset Task) + (mid : Multiset Task)) := by
                rw [key]
          _ = ((tl.map Prod.snd : List Task) : Multiset Task)
              + ((mid : Multiset Task)
                + ((pending.drop (admitAll pending i q time).2 : List Task) : Multiset Task))
              + ((q.heap : List Task) : Multiset Task) := by abel
    · rw [if_neg hg] at h
      obtain rfl : tl = res := Option.some.inj h
      obtain ⟨h1, h2⟩ := simLoop_guard_false hg
      rw [h1, h2]
      simp

end Prqueue

namespace Prqueue

lemma simLoop_ff_time_le {pending : List Task} {i1 : Nat} {time : Int}
    (h0 : 0 ≤ time)
    (hexit : ¬(i1 < pending.length ∧ arrOr0 (heapGet pending i1) ≤ time)) :
    time ≤ (if i1 < pending.length then pyOr (heapGet pending i1).arrival_time time
      else time) := by
  split_ifs with hi
  · have harr : time < arrOr0 (heapGet pending i1) := by
      push_neg at hexit
      exact hexit hi
    exact le_of_lt (pyOr_gt h0 harr)
  · exact le_refl _

lemma simLoop_times (fuel : Nat) :
    ∀ (pending : List Task) (i : Nat) (q : PQ) (time : Int)
      (tl res : List (Int × Task)),
      0 ≤ time →
      (∀ x ∈ tl.map Prod.fst, x < time) →
      List.Chain' (fun a b : Int => a < b) (tl.map Prod.fst) →
      simLoop fuel pending i q time tl = some res →
      List.Chain' (fun a b : Int => a < b) (res.map Prod.fst) := by
  induction fuel with
  | zero =>
    intro pending i q time tl res h0 hbound hchain h
    cases h
  | succ fuel ih =>
    intro pending i q time tl res h0 hbound hchain h
    rw [simLoop] at h
    by_cases hg : i < pending.length ∨ ¬q.is_empty = true
    · rw [if_pos hg] at h
      by_cases he : (admitAll pending i q time).1.is_empty = true
      · rw [if_pos he] at h
        have hle := simLoop_ff_time_le h0 (admitAll_exit pending i q time)
        exact ih _ _ _ _ _ _ (le_trans h0 hle)
          (fun x hx => lt_of_lt_of_le (hbound x hx) hle) hchain h
      · rw [if_neg he] at h
        have hne : (admitAll pending i q time).1.heap.length ≠ 0 := by
          intro hc
          exact he ((PQ.is_empty_iff _).mpr hc)
        obtain ⟨⟨t, q2⟩, hx⟩ := Option.isSome_iff_exists.mp (PQ.extract_top_isSome hne)
        rw [hx] at h
        replace h : simLoop fuel pending (admitAll pending i q time).2 q2 (time + 1)
            (tl ++ [(time, t)]) = some res := h
        refine ih _ _ _ _ _ _ (by omega) ?_ ?_ h
        · intro x hx2
          rw [List.map_append] at hx2
          rcases List.mem_append.mp hx2 with hm | hm
          · have := hbound x hm
            omega
          · simp at hm
            omega
        · rw [List.map_append, List.chain'_append]
          refine ⟨hchain, by simp, ?_⟩
          intro x hx2 y hy
          simp at hy
          subst hy
          exact hbound x (List.mem_of_mem_getLast? hx2)
    · rw [if_neg hg] at h
      obtain rfl : tl = res := Option.some.inj h
      exact hchain

lemma simLoop_isSome (mu : Nat) :
    ∀ (pending : List Task) (i : Nat) (q : PQ) (time : Int) (tl : List (Int × Task)),
      0 ≤ time → i ≤ pending.length →
      2 * (pending.length - i) + q.heap.length ≤ mu →
      (simLoop (mu + 1) pending i q time tl).isSome := by
  induction mu using Nat.strong_induction_on with
  | _ mu ihs =>
    intro pending i q time tl h0 hile hmu
    rw [simLoop]
    by_cases hg : i < pending.length ∨ ¬q.is_empty = true
    · rw [if_pos hg]
      obtain ⟨mid, hdrop, hperm, hi1⟩ := admitAll_heap pending i q time
      have hq1len : (admitAll pending i q time).1.heap.length
          = q.heap.length + mid.length := by
        rw [hperm.length_eq]
        simp
      have hi1le : (admitAll pending i q time).2 ≤ pending.length := admitAll_le hile
      by_cases he : (admitAll pending i q time).1.is_empty = true
      · rw [if_pos he]
        -- the admit phase admitted nothing and the queue was already empty
        have hq1z : (admitAll pending i q time).1.heap.length = 0 :=
          (PQ.is_empty_iff _).mp he
        have hmid : mid.length = 0 := by omega
        have hqz : q.heap.length = 0 := by omega
        have hilt : i < pending.length := by
          rcases hg with hg | hg
          · exact hg
          · exact absurd ((PQ.is_empty_iff q).mpr hqz) hg
        have hi1 : (admitAll pending i q time).2 = i := by omega
        -- the clock jumps strictly forward, to the arrival of pending[i]
        have hexit := admitAll_exit pending i q time
        rw [hi1] at hexit
        have harr : time < arrOr0 (heapGet pending i) := by
          push_neg at hexit
          exact hexit hilt
        have htime' : (if (admitAll pending i q time).2 < pending.length then
            pyOr (heapGet pending (admitAll pending i q time).2).arrival_time time
            else time) = pyOr (heapGet pending i).arrival_time time := by
          rw [hi1, if_pos hilt]
        rw [htime', hi1]
        -- one more unfolding: now the admit phase makes strict progress
        have hmu2 : 2 ≤ mu := by omega
        obtain ⟨nu, rfl⟩ : ∃ nu, mu = nu + 1 := ⟨mu - 1, by omega⟩
        rw [simLoop, if_pos (Or.inl hilt)]
        have harr2 : arrOr0 (heapGet pending i)
            ≤ pyOr (heapGet pending i).arrival_time time := by
          rw [← arrOr0_eq_pyOr h0 harr]
        obtain ⟨mid2, hdrop2, hperm2, hi2⟩ :=
          admitAll_heap pending i (admitAll pending i q time).1
            (pyOr (heapGet pending i).arrival_time time)
        have hprog : i + 1 ≤ (admitAll pending i (admitAll pending i q time).1
            (pyOr (heapGet pending i).arrival_time time)).2 :=
          admitAll_progress hilt harr2
        have hq2len : (admitAll pending i (admitAll pending i q time).1
            (pyOr (heapGet pending i).arrival_time time)).1.heap.length
            = mid2.length := by
          rw [hperm2.length_eq]
          simp [hq1z, List.length_eq_zero.mp hq1z]
        have hmid2 : 1 ≤ mid2.length := by omega
        have he2 : ¬(admitAll pending i (admitAll pending i q time).1
            (pyOr (heapGet pending i).arrival_time time)).1.is_empty = true := by
          rw [PQ.is_empty_iff]
          omega
        rw [if_neg he2]
        have hne2 : (admitAll pending i (admitAll pending i q time).1
            (pyOr (heapGet pending i).arrival_time time)).1.heap.length ≠ 0 := by
          omega
        obtain ⟨⟨t, q2⟩, hx⟩ := Option.isSome_iff_exists.mp (PQ.extract_top_isSome hne2)
        rw [hx]
        have hlen2 := PQ.extract_top_length hx
        have hi2le : (admitAll pending i (admitAll pending i q time).1
            (pyOr (heapGet pending i).arrival_time time)).2 ≤ pending.length :=
          admitAll_le (by omega)
        obtain ⟨ka, rfl⟩ : ∃ ka, nu = ka + 1 := ⟨nu - 1, by omega⟩
        refine ihs ka (by omega) pending _ q2 (pyOr (heapGet pending i).arrival_time time + 1)
          (tl ++ [(pyOr (heapGet pending i).arrival_time time, t)]) ?_ hi2le ?_
        · have := pyOr_gt h0 harr
          omega
        · omega
      · rw [if_neg he]
        have hne : (admitAll pending i q time).1.heap.length ≠ 0 := by
          intro hc
          exact he ((PQ.is_empty_iff _).mpr hc)
        obtain ⟨⟨t, q2⟩, hx⟩ := Option.isSome_iff_exists.mp (PQ.extract_top_isSome hne)
        rw [hx]
        have hlen2 := PQ.extract_top_length hx
        have hmu1 : 1 ≤ mu := by
          rcases hg with hg | hg
          · omega
          · have : q.heap.length ≠ 0 := by
              intro hc
              exact hg ((PQ.is_empty_iff q).mpr hc)
            omega
        obtain ⟨nu, rfl⟩ : ∃ nu, mu = nu + 1 := ⟨mu - 1, by omega⟩
        exact ihs nu (by omega) pending _ q2 (time + 1) (tl ++ [(time, t)]) (by omega)
          hi1le (by omega)
    · rw [if_neg hg]
      rfl

end Prqueue

section Heapsort

/-- `j` lies in the subtree rooted at `r` of the implicit binary tree on
array indices (`r` itself, or reached by repeatedly taking children). -/
inductive Desc (r : Nat) : Nat → Prop
  | refl : Desc r r
  | step {p j : Nat} : Desc r p → Prqueue.childOf p j → Desc r j

lemma Desc.le {r j : Nat} (h : Desc r j) : r ≤ j := by
  induction h with
  | refl => exact le_refl _
  | step hp hc ih =>
    have := Prqueue.childOf_lt hc
    omega

lemma Desc.trans {r c j : Nat} (h1 : Desc r c) (h2 : Desc c j) : Desc r j := by
  induction h2 with
  | refl => exact h1
  | step hp hc ih => exact Desc.step ih hc

lemma Desc.child {r j : Nat} (h : Prqueue.childOf r j) : Desc r j :=
  Desc.step Desc.refl h

lemma Desc.parent_of_ne {c j : Nat} (h : Desc c j) (hne : j ≠ c) :
    Desc c ((j - 1) / 2) ∧ 0 < j := by
  cases h with
  | refl => exact absurd rfl hne
  | step hp hc =>
    obtain ⟨hpar, hpos⟩ := Prqueue.childOf_parent hc
    exact ⟨hpar ▸ hp, hpos⟩

lemma not_desc_of_lt {c j : Nat} (h : j < c) : ¬Desc c j := by
  intro hd
  have := hd.le
  omega

lemma desc_zero (j : Nat) : Desc 0 j := by
  induction j using Nat.strong_induction_on with
  | _ j ih =>
    rcases Nat.eq_zero_or_pos j with rfl | h0
    · exact Desc.refl
    · exact Desc.step (ih ((j - 1) / 2) (by omega)) (Prqueue.childOf_of_parent h0)

lemma hsGet_eq_getElem {l : List Int} {i : Nat} (h : i < l.length) : hsGet l i = l[i] := by
  simp [hsGet, List.getElem?_eq_getElem h]

lemma hsGet_set_self {l : List Int} {i : Nat} (h : i < l.length) (v : Int) :
    hsGet (l.set i v) i = v := by
  simp [hsGet, List.getElem?_set, h]

lemma hsGet_set_ne {l : List Int} {i j : Nat} (h : i ≠ j) (v : Int) :
    hsGet (l.set i v) j = hsGet l j := by
  simp [hsGet, List.getElem?_set, h]

lemma length_hsSwap (a : List Int) (i j : Nat) : (hsSwap a i j).length = a.length := by
  simp [hsSwap]

lemma hsSwap_fst {a : List Int} {i j : Nat} (hi : i < a.length) (hij : i ≠ j) :
    hsGet (hsSwap a i j) i = hsGet a j := by
  unfold hsSwap
  rw [hsGet_set_ne (Ne.symm hij), hsGet_set_self hi]

lemma hsSwap_snd {a : List Int} {i j : Nat} (hj : j < a.length) :
    hsGet (hsSwap a i j) j = hsGet a i := by
  unfold hsSwap
  rw [hsGet_set_self (by simpa using hj)]

lemma hsSwap_other {a : List Int} {i j k : Nat} (hki : k ≠ i) (hkj : k ≠ j) :
    hsGet (hsSwap a i j) k = hsGet a k := by
  unfold hsSwap
  rw [hsGet_set_ne (Ne.symm hkj), hsGet_set_ne (Ne.symm hki)]

lemma hsGet_getElem? {l : List Int} {i : Nat} (h : i < l.length) :
    l[i]? = some (hsGet l i) := by
  simp [hsGet, List.getElem?_eq_getElem h]

lemma hsSwap_perm {a : List Int} {i j : Nat} (hi : i < a.length)
    (hj : j < a.length) : (hsSwap a i j).Perm a := by
  unfold hsSwap
  by_cases hij : i = j
  · subst hij
    have p1 : (((a.set i (hsGet a i)).set i (hsGet a i)) ++ [hsGet a i]).Perm
        ((a.set i (hsGet a i)) ++ [hsGet a i]) := by
      refine set_append_perm _ ?_
      rw [List.getElem?_set]
      simp [hi, hsGet, List.getElem?_eq_getElem hi]
    have p2 : ((a.set i (hsGet a i)) ++ [hsGet a i]).Perm (a ++ [hsGet a i]) :=
      set_append_perm _ (hsGet_getElem? hi)
    exact perm_append_singleton_inv (p1.trans p2)
  · have hj' : (a.set i (hsGet a j))[j]? = some (hsGet a j) := by
      rw [List.getElem?_set]
      simp [hij]
      exact hsGet_getElem? hj
    have p1 : (((a.set i (hsGet a j)).set j (hsGet a i)) ++ [hsGet a j]).Perm
        ((a.set i (hsGet a j)) ++ [hsGet a i]) :=
      set_append_perm _ hj'
    have p2 : ((a.set i (hsGet a j)) ++ [hsGet a i]).Perm (a ++ [hsGet a j]) :=
      set_append_perm _ (hsGet_getElem? hi)
    exact perm_append_singleton_inv (p1.trans p2)

lemma hsChild_childOf {a : List Int} {root endd : Nat} :
    Prqueue.childOf root (hsChild a root endd) := by
  unfold hsChild Prqueue.childOf
  split <;> omega

lemma hsChild_max {a : List Int} {root endd : Nat} (h : 2 * root + 1 ≤ endd) :
    ∀ j, Prqueue.childOf root j → j ≤ endd → hsGet a j ≤ hsGet a (hsChild a root endd) := by
  intro j hc hj
  unfold hsChild
  split_ifs with h1
  · rcases hc with rfl | rfl
    · exact le_of_lt h1.2
    · exact le_refl _
  · push_neg at h1
    rcases hc with rfl | rfl
    · exact le_refl _
    · exact h1 (by omega)

end Heapsort

section Heapsort

lemma length_hsSiftDown (a : List Int) (root endd : Nat) :
    (hsSiftDown a root endd).length = a.length := by
  induction a, root, endd using hsSiftDown.induct with
  | case1 a root endd h => rw [hsSiftDown, dif_pos h]
  | case2 a root endd h hlt ih =>
    rw [hsSiftDown, dif_neg h, if_pos hlt, ih, length_hsSwap]
  | case3 a root endd h hlt => rw [hsSiftDown, dif_neg h, if_neg hlt]

lemma hsSiftDown_perm {a : List Int} {root endd : Nat} (hlen : endd < a.length) :
    (hsSiftDown a root endd).Perm a := by
  induction a, root, endd using hsSiftDown.induct with
  | case1 a root endd h => rw [hsSiftDown, dif_pos h]
  | case2 a root endd h hlt ih =>
    rw [hsSiftDown, dif_neg h, if_pos hlt]
    have hc1 := hsChild_gt a root endd
    have hc2 := hsChild_le a root endd (by omega)
    exact (ih (by rw [length_hsSwap]; exact hlen)).trans
      (hsSwap_perm (by omega) (by omega))
  | case3 a root endd h hlt => rw [hsSiftDown, dif_neg h, if_neg hlt]

lemma hsSiftDown_outside (a : List Int) (root endd : Nat) :
    ∀ j, ¬Desc root j → hsGet (hsSiftDown a root endd) j = hsGet a j := by
  induction a, root, endd using hsSiftDown.induct with
  | case1 a root endd h =>
    intro j hj
    rw [hsSiftDown, dif_pos h]
  | case2 a root endd h hlt ih =>
    intro j hj
    rw [hsSiftDown, dif_neg h, if_pos hlt]
    have hdc : Desc root (hsChild a root endd) := Desc.child hsChild_childOf
    have hjc : ¬Desc (hsChild a root endd) j := by
      intro hd
      exact hj (hdc.trans hd)
    rw [ih j hjc]
    have hjr : j ≠ root := by
      intro hr
      exact hj (hr ▸ Desc.refl)
    have hjc2 : j ≠ hsChild a root endd := by
      intro hr
      exact hj (hr ▸ hdc)
    exact hsSwap_other hjr hjc2
  | case3 a root endd h hlt =>
    intro j hj
    rw [hsSiftDown, dif_neg h, if_neg hlt]

lemma hsSiftDown_beyond (a : List Int) (root endd : Nat) :
    ∀ j, endd < j → hsGet (hsSiftDown a root endd) j = hsGet a j := by
  induction a, root, endd using hsSiftDown.induct with
  | case1 a root endd h =>
    intro j hj
    rw [hsSiftDown, dif_pos h]
  | case2 a root endd h hlt ih =>
    intro j hj
    rw [hsSiftDown, dif_neg h, if_pos hlt]
    have hc1 := hsChild_gt a root endd
    have hc2 := hsChild_le a root endd (by omega)
    rw [ih j hj]
    exact hsSwap_other (by omega) (by omega)
  | case3 a root endd h hlt =>
    intro j hj
    rw [hsSiftDown, dif_neg h, if_neg hlt]

lemma hsSiftDown_values (a : List Int) (root endd : Nat) :
    ∀ j, endd < a.length → Desc root j → j ≤ endd →
      ∃ j2, Desc root j2 ∧ j2 ≤ endd ∧ hsGet (hsSiftDown a root endd) j = hsGet a j2 := by
  induction a, root, endd using hsSiftDown.induct with
  | case1 a root endd h =>
    intro j hlen hdj hj
    rw [hsSiftDown, dif_pos h]
    exact ⟨j, hdj, hj, rfl⟩
  | case2 a root endd h hlt ih =>
    intro j hlen hdj hj
    rw [hsSiftDown, dif_neg h, if_pos hlt]
    have hc1 := hsChild_gt a root endd
    have hc2 := hsChild_le a root endd (by omega)
    have hrootlen : root < a.length := by omega
    have hclen : hsChild a root endd < a.length := by omega
    have hdc : Desc root (hsChild a root endd) := Desc.child hsChild_childOf
    by_cases hjc : Desc (hsChild a root endd) j
    · obtain ⟨j2, hdj2, hj2, hv⟩ := ih j (by rw [length_hsSwap]; exact hlen) hjc hj
      by_cases hj2c : j2 = hsChild a root endd
      · subst hj2c
        refine ⟨root, Desc.refl, by omega, ?_⟩
        rw [hv]
        exact hsSwap_snd hclen
      · have hj2gt : hsChild a root endd < j2 :=
          lt_of_le_of_ne hdj2.le (Ne.symm hj2c)
        refine ⟨j2, hdc.trans hdj2, hj2, ?_⟩
        rw [hv]
        exact hsSwap_other (by omega) hj2c
    · rw [hsSiftDown_outside _ _ _ j hjc]
      by_cases hjr : root = j
      · subst hjr
        have hrc : root ≠ hsChild a root endd := by omega
        refine ⟨hsChild a root endd, hdc, hc2, ?_⟩
        exact hsSwap_fst hrootlen hrc
      · have hjc2 : j ≠ hsChild a root endd := by
          intro hr
          exact hjc (hr ▸ Desc.refl)
        rw [hsSwap_other (Ne.symm hjr) hjc2]
        exact ⟨j, hdj, hj, rfl⟩
  | case3 a root endd h hlt =>
    intro j hlen hdj hj
    rw [hsSiftDown, dif_neg h, if_neg hlt]
    exact ⟨j, hdj, hj, rfl⟩

lemma desc_bound {a : List Int} {root c endd : Nat}
    (pre : ∀ i j, Prqueue.childOf i j → j ≤ endd → root < i → hsGet a j ≤ hsGet a i)
    (hrc : root < c) :
    ∀ j, Desc c j → j ≤ endd → hsGet a j ≤ hsGet a c := by
  intro j hd
  induction hd with
  | refl => intro _; exact le_refl _
  | step hp hc ih =>
    intro hj
    next p j2 =>
    have hplt := Prqueue.childOf_lt hc
    have h1 : hsGet a j2 ≤ hsGet a p := pre p j2 hc hj (by have := hp.le; omega)
    exact le_trans h1 (ih (by omega))

end Heapsort

section Heapsort

lemma hsSiftDown_heap (a : List Int) (root endd : Nat) :
    endd < a.length →
    (∀ i j, Prqueue.childOf i j → j ≤ endd → root < i → hsGet a j ≤ hsGet a i) →
    ∀ i j, Prqueue.childOf i j → j ≤ endd → root ≤ i →
      hsGet (hsSiftDown a root endd) j ≤ hsGet (hsSiftDown a root endd) i := by
  induction a, root, endd using hsSiftDown.induct with
  | case1 a root endd h =>
    intro hlen pre i j hc hj hi
    rw [hsSiftDown, dif_pos h]
    rcases Nat.eq_or_lt_of_le hi with heq | hlt2
    · subst heq
      rcases hc with rfl | rfl <;> omega
    · exact pre i j hc hj hlt2
  | case3 a root endd h hnlt =>
    intro hlen pre i j hc hj hi
    rw [hsSiftDown, dif_neg h, if_neg hnlt]
    rcases Nat.eq_or_lt_of_le hi with heq | hlt2
    · subst heq
      exact le_trans (hsChild_max (by omega) j hc hj) (le_of_not_lt hnlt)
    · exact pre i j hc hj hlt2
  | case2 a root endd h hswap ih =>
    intro hlen pre i j hc hj hi
    rw [hsSiftDown, dif_neg h, if_pos hswap]
    have hc1 := hsChild_gt a root endd
    have hc2 := hsChild_le a root endd (by omega)
    have hrootlen : root < a.length := by omega
    have hclen : hsChild a root endd < a.length := by omega
    have hblen : endd < (hsSwap a root (hsChild a root endd)).length := by
      rw [length_hsSwap]
      exact hlen
    have pre2 : ∀ i2 j2, Prqueue.childOf i2 j2 → j2 ≤ endd →
        hsChild a root endd < i2 →
        hsGet (hsSwap a root (hsChild a root endd)) j2
          ≤ hsGet (hsSwap a root (hsChild a root endd)) i2 := by
      intro i2 j2 hc2' hj2 hi2
      have hj2gt : i2 < j2 := Prqueue.childOf_lt hc2'
      rw [hsSwap_other (by omega) (by omega), hsSwap_other (by omega) (by omega)]
      exact pre i2 j2 hc2' hj2 (by omega)
    have post := ih hblen pre2
    rcases Nat.lt_or_ge i (hsChild a root endd) with hic | hic
    · rcases Nat.eq_or_lt_of_le hi with heq | hgt
      · subst heq
        have hroot_out : ¬Desc (hsChild a root endd) root := not_desc_of_lt hc1
        have hrc_root :
            hsGet (hsSiftDown (hsSwap a root (hsChild a root endd))
              (hsChild a root endd) endd) root
              = hsGet (hsSwap a root (hsChild a root endd)) root :=
          hsSiftDown_outside _ _ _ root hroot_out
        have hb_root : hsGet (hsSwap a root (hsChild a root endd)) root
            = hsGet a (hsChild a root endd) := hsSwap_fst hrootlen (by omega)
        by_cases hjc : j = hsChild a root endd
        · subst hjc
          obtain ⟨j2, hdj2, hj2le, hval⟩ :=
            hsSiftDown_values _ _ _ (hsChild a root endd) hblen Desc.refl hc2
          rw [hrc_root, hb_root, hval]
          by_cases hj2c : j2 = hsChild a root endd
          · subst hj2c
            rw [hsSwap_snd hclen]
            exact le_of_lt hswap
          · have hj2gt : hsChild a root endd < j2 :=
              lt_of_le_of_ne hdj2.le (Ne.symm hj2c)
            rw [hsSwap_other (by omega) hj2c]
            exact desc_bound pre hc1 j2 hdj2 hj2le
        · have hjlt : root < j := Prqueue.childOf_lt hc
          have hjnotdesc : ¬Desc (hsChild a root endd) j := by
            intro hd
            obtain ⟨hdp, hpos⟩ := hd.parent_of_ne hjc
            rw [← (Prqueue.childOf_parent hc).1] at hdp
            exact absurd hdp (not_desc_of_lt hc1)
          have h1 := hsSiftDown_outside (hsSwap a root (hsChild a root endd))
            (hsChild a root endd) endd j hjnotdesc
          have h2 : hsGet (hsSwap a root (hsChild a root endd)) j = hsGet a j :=
            hsSwap_other (by omega) hjc
          rw [hrc_root, hb_root, h1, h2]
          exact hsChild_max (by omega) j hc hj
      · have hinotdesc : ¬Desc (hsChild a root endd) i := not_desc_of_lt hic
        have hjnotdesc : ¬Desc (hsChild a root endd) j := by
          intro hd
          by_cases hjc : j = hsChild a root endd
          · have e1 := (Prqueue.childOf_parent hc).1
            have e2 := (Prqueue.childOf_parent (@hsChild_childOf a root endd)).1
            subst hjc
            omega
          · obtain ⟨hdp, hpos⟩ := hd.parent_of_ne hjc
            rw [← (Prqueue.childOf_parent hc).1] at hdp
            exact absurd hdp (not_desc_of_lt hic)
        have hjgt : i < j := Prqueue.childOf_lt hc
        have hjc2 : j ≠ hsChild a root endd := by
          intro hr
          exact hjnotdesc (hr ▸ Desc.refl)
        rw [hsSiftDown_outside _ _ _ j hjnotdesc, hsSiftDown_outside _ _ _ i hinotdesc,
          hsSwap_other (by omega) hjc2, hsSwap_other (by omega) (by omega)]
        exact pre i j hc hj hgt
    · exact post i j hc hj hic

end Heapsort

section Heapsort

lemma length_heapifyFrom (n : Nat) : ∀ (start : Nat) (a : List Int),
    (heapifyFrom a n start).length = a.length := by
  intro start
  induction start with
  | zero =>
    intro a
    show (hsSiftDown a 0 (n - 1)).length = _
    exact length_hsSiftDown ..
  | succ s ih =>
    intro a
    show (heapifyFrom (hsSiftDown a (s + 1) (n - 1)) n s).length = _
    rw [ih, length_hsSiftDown]

lemma heapifyFrom_perm (n : Nat) : ∀ (start : Nat) (a : List Int),
    n - 1 < a.length → (heapifyFrom a n start).Perm a := by
  intro start
  induction start with
  | zero =>
    intro a h
    exact hsSiftDown_perm h
  | succ s ih =>
    intro a h
    show (heapifyFrom (hsSiftDown a (s + 1) (n - 1)) n s).Perm a
    exact (ih _ (by rw [length_hsSiftDown]; exact h)).trans (hsSiftDown_perm h)

lemma heapifyFrom_heap (n : Nat) : ∀ (start : Nat) (a : List Int),
    n - 1 < a.length →
    (∀ i j, Prqueue.childOf i j → j ≤ n - 1 → start < i → hsGet a j ≤ hsGet a i) →
    ∀ i j, Prqueue.childOf i j → j ≤ n - 1 →
      hsGet (heapifyFrom a n start) j ≤ hsGet (heapifyFrom a n start) i := by
  intro start
  induction start with
  | zero =>
    intro a hlen pre i j hc hj
    show hsGet (hsSiftDown a 0 (n - 1)) j ≤ hsGet (hsSiftDown a 0 (n - 1)) i
    exact hsSiftDown_heap a 0 (n - 1) hlen pre i j hc hj (Nat.zero_le i)
  | succ s ih =>
    intro a hlen pre i j hc hj
    show hsGet (heapifyFrom (hsSiftDown a (s + 1) (n - 1)) n s) j ≤ _
    refine ih _ (by rw [length_hsSiftDown]; exact hlen) ?_ i j hc hj
    intro i2 j2 hc2 hj2 hi2
    exact hsSiftDown_heap a (s + 1) (n - 1) hlen pre i2 j2 hc2 hj2 (by omega)

lemma heap_root_max {a : List Int} {endd : Nat}
    (hH : ∀ i j, Prqueue.childOf i j → j ≤ endd → hsGet a j ≤ hsGet a i) :
    ∀ j, j ≤ endd → hsGet a j ≤ hsGet a 0 := by
  intro j
  induction j using Nat.strong_induction_on with
  | _ j ih =>
    intro hj
    rcases Nat.eq_zero_or_pos j with rfl | h0
    · exact le_refl _
    · exact le_trans (hH _ _ (Prqueue.childOf_of_parent h0) hj) (ih _ (by omega) (by omega))

lemma length_sortDown : ∀ (endd : Nat) (a : List Int),
    (sortDown a endd).length = a.length := by
  intro endd
  induction endd with
  | zero => intro a; rfl
  | succ e ih =>
    intro a
    show (sortDown (hsSiftDown (hsSwap a 0 (e + 1)) 0 e) e).length = _
    rw [ih, length_hsSiftDown, length_hsSwap]

lemma sortDown_perm : ∀ (endd : Nat) (a : List Int),
    endd < a.length → (sortDown a endd).Perm a := by
  intro endd
  induction endd with
  | zero =>
    intro a h
    exact List.Perm.refl _
  | succ e ih =>
    intro a h
    show (sortDown (hsSiftDown (hsSwap a 0 (e + 1)) 0 e) e).Perm a
    have h0 : 0 < a.length := by omega
    have hb : e < (hsSwap a 0 (e + 1)).length := by
      rw [length_hsSwap]
      omega
    refine (ih _ ?_).trans ((hsSiftDown_perm hb).trans (hsSwap_perm h0 h))
    rw [length_hsSiftDown, length_hsSwap]
    omega

lemma sortDown_sorted : ∀ (endd : Nat) (a : List Int),
    endd < a.length →
    (∀ i j, Prqueue.childOf i j → j ≤ endd → hsGet a j ≤ hsGet a i) →
    (∀ i j, endd < i → i < j → j < a.length → hsGet a i ≤ hsGet a j) →
    (∀ i j, i ≤ endd → endd < j → j < a.length → hsGet a i ≤ hsGet a j) →
    ∀ i j, i < j → j < a.length →
      hsGet (sortDown a endd) i ≤ hsGet (sortDown a endd) j := by
  intro endd
  induction endd with
  | zero =>
    intro a hlen hH hS hB i j hij hj
    show hsGet a i ≤ hsGet a j
    rcases Nat.eq_zero_or_pos i with rfl | hi0
    · exact hB 0 j (le_refl 0) hij hj
    · exact hS i j hi0 hij hj
  | succ e ih =>
    intro a hlen hH hS hB i j hij hj
    show hsGet (sortDown (hsSiftDown (hsSwap a 0 (e + 1)) 0 e) e) i
      ≤ hsGet (sortDown (hsSiftDown (hsSwap a 0 (e + 1)) 0 e) e) j
    have h0len : 0 < a.length := by omega
    have hblen : e < (hsSwap a 0 (e + 1)).length := by
      rw [length_hsSwap]
      omega
    have ha2len : (hsSiftDown (hsSwap a 0 (e + 1)) 0 e).length = a.length := by
      rw [length_hsSiftDown, length_hsSwap]
    have hmax := heap_root_max hH
    have hpre : ∀ i2 j2, Prqueue.childOf i2 j2 → j2 ≤ e → 0 < i2 →
        hsGet (hsSwap a 0 (e + 1)) j2 ≤ hsGet (hsSwap a 0 (e + 1)) i2 := by
      intro i2 j2 hc2 hj2 hi2
      have hlt := Prqueue.childOf_lt hc2
      rw [hsSwap_other (by omega) (by omega), hsSwap_other (by omega) (by omega)]
      exact hH i2 j2 hc2 (by omega)
    have hH2 : ∀ i2 j2, Prqueue.childOf i2 j2 → j2 ≤ e →
        hsGet (hsSiftDown (hsSwap a 0 (e + 1)) 0 e) j2
          ≤ hsGet (hsSiftDown (hsSwap a 0 (e + 1)) 0 e) i2 :=
      fun i2 j2 hc2 hj2 =>
        hsSiftDown_heap _ 0 e hblen hpre i2 j2 hc2 hj2 (Nat.zero_le _)
    have ha2bound : ∀ k, k ≤ e →
        hsGet (hsSiftDown (hsSwap a 0 (e + 1)) 0 e) k ≤ hsGet a 0 := by
      intro k hk
      obtain ⟨j2, hdj2, hj2le, hval⟩ :=
        hsSiftDown_values _ 0 e k hblen (desc_zero k) hk
      rw [hval]
      by_cases hj20 : j2 = 0
      · subst hj20
        rw [hsSwap_fst h0len (by omega)]
        exact hmax (e + 1) (le_refl _)
      · rw [hsSwap_other hj20 (by omega)]
        exact hmax j2 (by omega)
    have ha2beyond : ∀ k, e < k →
        hsGet (hsSiftDown (hsSwap a 0 (e + 1)) 0 e) k = hsGet (hsSwap a 0 (e + 1)) k :=
      hsSiftDown_beyond _ 0 e
    have hb_at : hsGet (hsSwap a 0 (e + 1)) (e + 1) = hsGet a 0 := hsSwap_snd hlen
    have hb_gt : ∀ k, e + 1 < k → hsGet (hsSwap a 0 (e + 1)) k = hsGet a k :=
      fun k hk => hsSwap_other (by omega) (by omega)
    refine ih _ (by rw [ha2len]; omega) hH2 ?_ ?_ i j hij (by rw [ha2len]; exact hj)
    · intro i2 j2 hi2 hij2 hj2
      rw [ha2len] at hj2
      rw [ha2beyond i2 hi2, ha2beyond j2 (by omega)]
      rcases Nat.eq_or_lt_of_le (show e + 1 ≤ i2 by omega) with heq | hgt
      · subst heq
        rw [hb_at, hb_gt j2 (by omega)]
        exact hB 0 j2 (by omega) (by omega) hj2
      · rw [hb_gt i2 (by omega), hb_gt j2 (by omega)]
        exact hS i2 j2 (by omega) hij2 hj2
    · intro i2 j2 hi2 hj2 hj2len
      rw [ha2len] at hj2len
      have hleft := ha2bound i2 hi2
      rw [ha2beyond j2 hj2]
      rcases Nat.eq_or_lt_of_le (show e + 1 ≤ j2 by omega) with heq | hgt
      · subst heq
        rw [hb_at]
        exact hleft
      · rw [hb_gt j2 (by omega)]
        exact le_trans hleft (hB 0 j2 (by omega) (by omega) hj2len)

lemma heapsort_perm (arr : List Int) : (heapsort arr).Perm arr := by
  unfold heapsort
  by_cases hn : 2 ≤ arr.length
  · rw [if_pos hn]
    have h1 : arr.length - 1
        < (heapifyFrom arr arr.length ((arr.length - 2) / 2)).length := by
      rw [length_heapifyFrom]
      omega
    exact (sortDown_perm _ _ h1).trans (heapifyFrom_perm _ _ _ (by omega))
  · rw [if_neg hn]
    have h1 : arr.length - 1 = 0 := by omega
    rw [h1]
    exact List.Perm.refl _

lemma heapsort_sorted_pairs (arr : List Int) :
    ∀ i j, i < j → j < arr.length →
      hsGet (heapsort arr) i ≤ hsGet (heapsort arr) j := by
  unfold heapsort
  by_cases hn : 2 ≤ arr.length
  · rw [if_pos hn]
    have ha1len : (heapifyFrom arr arr.length ((arr.length - 2) / 2)).length
        = arr.length := length_heapifyFrom ..
    have hH1 : ∀ i j, Prqueue.childOf i j → j ≤ arr.length - 1 →
        hsGet (heapifyFrom arr arr.length ((arr.length - 2) / 2)) j
          ≤ hsGet (heapifyFrom arr arr.length ((arr.length - 2) / 2)) i := by
      refine heapifyFrom_heap arr.length _ _ (by omega) ?_
      intro i j hc hj hi
      rcases hc with rfl | rfl <;> omega
    intro i j hij hj
    refine sortDown_sorted _ _ (by rw [ha1len]; omega) hH1 ?_ ?_ i j hij
      (by rw [ha1len]; exact hj)
    · intro i2 j2 h1 h2 h3
      rw [ha1len] at h3
      omega
    · intro i2 j2 h1 h2 h3
      rw [ha1len] at h3
      omega
  · rw [if_neg hn]
    have h1 : arr.length - 1 = 0 := by omega
    rw [h1]
    intro i j hij hj
    omega

lemma heapsort_sorted (arr : List Int) : (heapsort arr).Sorted (· ≤ ·) := by
  rw [List.Sorted, List.pairwise_iff_getElem]
  intro i j hi hj hij
  have hlen : (heapsort arr).length = arr.length := (heapsort_perm arr).length_eq
  have h := heapsort_sorted_pairs arr i j hij (by omega)
  rwa [hsGet_eq_getElem hi, hsGet_eq_getElem hj] at h

lemma heapsort_idem (arr : List Int) : heapsort (heapsort arr) = heapsort arr :=
  List.eq_of_perm_of_sorted (heapsort_perm (heapsort arr)) (heapsort_sorted _)
    (heapsort_sorted _)

end Heapsort

namespace Prqueue

/-- Claim C1: for every queue (max or min mode) loaded with N tasks via
`insert` and then drained by repeated `extract_top`, all N tasks come back out
and the sequence of effective keys of the returned tasks is non-increasing. -/
theorem claim_C1 (mode : Bool) (tasks : List Task) :
    (tasks.foldl PQ.insert (PQ.empty mode)).drain.length = tasks.length ∧
    List.Chain' (fun a b : Int => b ≤ a)
      ((tasks.foldl PQ.insert (PQ.empty mode)).drain.map (effKey mode)) := by
  constructor
  · rw [PQ.drain_length, PQ.foldl_insert_length]
    simp [PQ.empty]
  · refine (List.chain'_map (effKey mode)).mpr ?_
    have h := PQ.drain_sorted _ (PQ.foldl_insert_heapInv tasks _ (PQ.empty_heapInv mode))
    rw [PQ.foldl_insert_use_max] at h
    exact h

/-- Claim C2: the heap-order invariant holds after any sequence of public
calls (`insert`, `extract_top`, `increase_key`, `decrease_key`) starting from
the empty queue: every existing child's effective key is ≤ its parent's. -/
theorem claim_C2 (mode : Bool) (ops : List Op) :
    (applyOps (PQ.empty mode) ops).heapInv :=
  PQ.applyOps_heapInv (PQ.empty_heapInv mode) ops

/-- Claim C3: with pairwise-distinct inserted ids, the position map stays
consistent through any sequence of public calls starting from the empty queue:
an id has an entry iff it is resident, and its entry points at the heap slot
holding the task with that id. -/
theorem claim_C3 (mode : Bool) (ops : List Op)
    (hins : (insertIds ops).Nodup) :
    (applyOps (PQ.empty mode) ops).posOK :=
  (PQ.applyOps_posOK ops (PQ.empty_posOK mode) (PQ.empty_nodupIds mode) hins
    (by intro id hid; simp [PQ.empty])).1

theorem claim_C3_witness :
    (insertIds [Op.insert { priority := 3, task_id := "A" }, Op.extract]).Nodup ∧
    (applyOps (PQ.empty true)
      [Op.insert { priority := 3, task_id := "A" }, Op.extract]).posOK :=
  ⟨by decide, claim_C3 true _ (by decide)⟩

/-- Claim C4: on the spec's scenario A(3,arr 0), B(5,arr 1), C(1,arr 2),
D(4,arr 0) in max-heap mode, the scheduler produces exactly the timeline
[(0,D), (1,B), (2,A), (3,C)]. -/
theorem claim_C4 :
    simulate_scheduler
      [{ priority := 3, task_id := "A", arrival_time := some 0 },
       { priority := 5, task_id := "B", arrival_time := some 1 },
       { priority := 1, task_id := "C", arrival_time := some 2 },
       { priority := 4, task_id := "D", arrival_time := some 0 }] true
    = [(0, { priority := 4, task_id := "D", arrival_time := some 0 }),
       (1, { priority := 5, task_id := "B", arrival_time := some 1 }),
       (2, { priority := 3, task_id := "A", arrival_time := some 0 }),
       (3, { priority := 1, task_id := "C", arrival_time := some 2 })] := by
  simp [simulate_scheduler, simRun, simLoop, admitAll, arrOr0, arrKey, pyOr,
    PQ.empty, PQ.insert, PQ.sift_up, PQ.sift_down, PQ.largestOf, PQ.swap,
    PQ.keyAt, PQ.key, PQ.is_empty, PQ.extract_top, heapGet, pyUpdate, pyDelete,
    dTask, sortByArrival, insertByArrival]

/-- Claim C5: in a max-mode queue holding A:3, B:5, C:1, after
`increase_key "C" 10` the next `extract_top` returns task C. -/
theorem claim_C5 :
    (((((PQ.empty true).insert { priority := 3, task_id := "A" }).insert
        { priority := 5, task_id := "B" }).insert
        { priority := 1, task_id := "C" }).increase_key "C" 10).bind
      (fun q => (PQ.extract_top q).map (fun tq => tq.1.task_id)) = some "C" := by
  simp [PQ.empty, PQ.insert, PQ.sift_up, PQ.increase_key, PQ.swap, PQ.keyAt,
    PQ.key, heapGet, pyUpdate, pyDelete, dTask]
  simp [PQ.extract_top, PQ.sift_down, PQ.largestOf, PQ.swap, PQ.keyAt, PQ.key,
    heapGet, pyUpdate, pyDelete, dTask]

/-- Claim C6: the simulation loop terminates on every finite input: the run
with fuel 2·|tasks|+1 (one unit per while-iteration) never exhausts its fuel,
for any task list and either heap mode. -/
theorem claim_C6 (tasks : List Task) (mode : Bool) :
    (simRun tasks mode).isSome = true :=
  simLoop_isSome (2 * tasks.length) (sortByArrival tasks) 0 (PQ.empty mode) 0 []
    (le_refl 0) (Nat.zero_le _) (by simp [sortByArrival_length, PQ.empty])

/-- Claim C7: idle time is skipped, not stepped through.  First part: a single
task arriving at time 10 yields exactly the timeline [(10, task)].  Second
part: in general, when the queue is empty and the next pending task has not
arrived yet, one loop iteration jumps the clock to that task's arrival value
(`arrival_time or 0`) and appends nothing to the timeline. -/
theorem claim_C7 :
    (∀ (t : Task) (mode : Bool), t.arrival_time = some 10 →
      simulate_scheduler [t] mode = [(10, t)]) ∧
    (∀ (fuel : Nat) (pending : List Task) (i : Nat) (q : PQ) (time : Int)
        (tl : List (Int × Task)),
      0 ≤ time → i < pending.length → q.heap = [] →
      time < arrOr0 (heapGet pending i) →
      simLoop (fuel + 1) pending i q time tl
        = simLoop fuel pending i q (arrOr0 (heapGet pending i)) tl) := by
  constructor
  · intro t mode h
    obtain ⟨p, id, arr, d, pl⟩ := t
    replace h : arr = some 10 := h
    subst h
    simp [simulate_scheduler, simRun, simLoop, admitAll, arrOr0, arrKey, pyOr,
      PQ.empty, PQ.insert, PQ.sift_up, PQ.sift_down, PQ.largestOf, PQ.swap,
      PQ.keyAt, PQ.key, PQ.is_empty, PQ.extract_top, heapGet, pyUpdate,
      pyDelete, dTask, sortByArrival, insertByArrival]
  · intro fuel pending i q time tl h0 hi hq harr
    have hadmit : admitAll pending i q time = (q, i) := by
      rw [admitAll, dif_neg]
      rintro ⟨h1, h2⟩
      omega
    have hemp : q.is_empty = true := (PQ.is_empty_iff q).mpr (by rw [hq]; rfl)
    rw [simLoop, if_pos (Or.inl hi), hadmit]
    simp only [hemp, if_true, if_pos hi]
    rw [← arrOr0_eq_pyOr h0 harr]

theorem claim_C7_witness :
    simulate_scheduler [{ priority := 1, task_id := "X", arrival_time := some 10 }] true
      = [(10, { priority := 1, task_id := "X", arrival_time := some 10 })] ∧
    simLoop 1 [{ priority := 1, task_id := "X", arrival_time := some 10 }] 0
        (PQ.empty true) 0 []
      = simLoop 0 [{ priority := 1, task_id := "X", arrival_time := some 10 }] 0
          (PQ.empty true)
          (arrOr0 (heapGet [{ priority := 1, task_id := "X", arrival_time := some 10 }] 0))
          [] :=
  ⟨claim_C7.1 _ true rfl,
   claim_C7.2 0 _ 0 (PQ.empty true) 0 [] (by decide) (by decide) rfl (by decide)⟩

/-- Claim C8 (counterexample): inserting a task whose id is already resident
does not fail — both copies end up resident (the new A:2 is sifted to the
root, the old A:1 is displaced to slot 1), and the single position entry for
the shared id is left pointing at the displaced old copy, not the inserted
one. -/
theorem claim_C8_counterexample :
    ((((PQ.empty true).insert { priority := 1, task_id := "A" }).insert
        { priority := 2, task_id := "A" }).heap.map
      (fun t => (t.priority, t.task_id)) = [(2, "A"), (1, "A")]) ∧
    (((PQ.empty true).insert { priority := 1, task_id := "A" }).insert
        { priority := 2, task_id := "A" }).position "A" = some 1 := by
  constructor
  · simp [PQ.empty, PQ.insert, PQ.sift_up, PQ.swap, PQ.keyAt, PQ.key, heapGet,
      pyUpdate, pyDelete, dTask]
  · simp [PQ.empty, PQ.insert, PQ.sift_up, PQ.swap, PQ.keyAt, PQ.key, heapGet,
      pyUpdate, pyDelete, dTask]

/-- Claim C8 (amended): `insert` never fails.  It always appends the task —
the new heap is the old heap plus the task, and the position map afterwards
has some entry for the task's id — even when a task with that id is already
resident (in which case, per the counterexample, the entry need not point at
the inserted copy); duplicate avoidance is a caller obligation. -/
theorem claim_C8 (q : PQ) (t : Task) :
    (q.insert t).heap.Perm (q.heap ++ [t]) ∧
    ((q.insert t).position t.task_id).isSome = true :=
  ⟨PQ.insert_perm q t, PQ.insert_pos_isSome q t⟩

/-- Claim C10: when the input ids are pairwise distinct, the timeline contains
exactly the input tasks (a permutation of the input list, each paired with a
time stamp) and the time stamps strictly increase along the timeline. -/
theorem claim_C10 (tasks : List Task) (mode : Bool)
    (hids : (tasks.map Task.task_id).Nodup) :
    ((simulate_scheduler tasks mode).map Prod.snd).Perm tasks ∧
    List.Chain' (fun a b : Int => a < b)
      ((simulate_scheduler tasks mode).map Prod.fst) := by
  have hsome := simLoop_isSome (2 * tasks.length) (sortByArrival tasks) 0
    (PQ.empty mode) 0 [] (le_refl 0) (Nat.zero_le _)
    (by simp [sortByArrival_length, PQ.empty])
  obtain ⟨res, hres⟩ := Option.isSome_iff_exists.mp hsome
  have hrun : simRun tasks mode = some res := hres
  have hsched : simulate_scheduler tasks mode = res := by
    rw [simulate_scheduler, hrun]
    rfl
  constructor
  · have hm := simLoop_snd_multiset (2 * tasks.length + 1) (sortByArrival tasks) 0
      (PQ.empty mode) 0 [] res hres
    rw [hsched]
    simp only [List.map_nil, List.drop_zero] at hm
    have hms : ((res.map Prod.snd : List Task) : Multiset Task)
        = ((sortByArrival tasks : List Task) : Multiset Task) := by
      rw [hm]
      simp [PQ.empty]
    exact (Multiset.coe_eq_coe.mp hms).trans (sortByArrival_perm tasks)
  · have ht := simLoop_times (2 * tasks.length + 1) (sortByArrival tasks) 0
      (PQ.empty mode) 0 [] res (le_refl 0) (by intro x hx; simp at hx) (by simp)
      hres
    rw [hsched]
    exact ht

theorem claim_C10_witness :
    (([{ priority := 2, task_id := "A", arrival_time := some 1 },
       { priority := 7, task_id := "B" }] : List Task).map Task.task_id).Nodup ∧
    (((simulate_scheduler
        [{ priority := 2, task_id := "A", arrival_time := some 1 },
         { priority := 7, task_id := "B" }] true).map Prod.snd).Perm
      [{ priority := 2, task_id := "A", arrival_time := some 1 },
       { priority := 7, task_id := "B" }] ∧
     List.Chain' (fun a b : Int => a < b)
      ((simulate_scheduler
        [{ priority := 2, task_id := "A", arrival_time := some 1 },
         { priority := 7, task_id := "B" }] true).map Prod.fst)) :=
  ⟨by decide, claim_C10 _ true (by decide)⟩

end Prqueue

/-- Claim C9: heapsort returns a permutation of its input sorted in
non-decreasing order, and applying it to its own output returns the identical
list. -/
theorem claim_C9 (arr : List Int) :
    (heapsort arr).Perm arr ∧ (heapsort arr).Sorted (· ≤ ·) ∧
    heapsort (heapsort arr) = heapsort arr :=
  ⟨heapsort_perm arr, heapsort_sorted arr, heapsort_idem arr⟩
